import Mathlib

/-!
# Verification of the `rust-playground` storage-engine core

A shallow embedding of the three subsystems of the repository:

* the persistent AA tree (`src/aa_tree/mod.rs`),
* the extendible hash table (`src/hash_table.rs`),
* the buffer pool with its LRU list, pages and disk manager
  (`src/buffer/*.rs`),

together with proofs and refutations of the specified properties.

Machine integers (`u32`, `usize`) are modelled as `Nat`; all arithmetic
performed by the code on them stays far below `2^32` on the inputs
considered, except where noted (the hash-table `mask`, where the
`checked_shl` saturation is modelled explicitly).
-/

namespace AA

/-- `Node` from `src/aa_tree/mod.rs`: a 32-bit value, a level, and the two
optional children (`Option<Box<Node>>` becomes `Option Node`). -/
inductive Node : Type where
  | mk (value : Nat) (level : Nat) (left : Option Node) (right : Option Node) : Node

namespace Node

def value : Node → Nat
  | .mk v _ _ _ => v

def level : Node → Nat
  | .mk _ l _ _ => l

def left : Node → Option Node
  | .mk _ _ l _ => l

def right : Node → Option Node
  | .mk _ _ _ r => r

/-- `Node::new`. -/
def new (value : Nat) (level : Nat) : Node := .mk value level none none

/-- `Node::new_leaf`. -/
def new_leaf (value : Nat) : Node := new value 1

/-- `skew` from `Node::put`. -/
def skew : Node → Node
  | .mk v lv none r => .mk v lv none r
  | .mk v lv (some l) r =>
    if l.level = lv then
      match l with
      | .mk lval llev lleft lright => .mk lval llev lleft (some (.mk v lv lright r))
    else
      .mk v lv (some l) r

/-- `split` from `Node::put`. -/
def split : Node → Node
  | .mk v lv l none => .mk v lv l none
  | .mk v lv l (some r) =>
    match r.right with
    | none => .mk v lv l (some r)
    | some rr =>
      if lv = r.level ∧ r.level = rr.level then
        match r with
        | .mk rv rlev rleft _ => .mk rv (rlev + 1) (some (.mk v lv l rleft)) r.right
      else
        .mk v lv l (some r)

/-- `inner` from `Node::put`: structural insert followed by `skew` then
`split` on the rebuilt node. -/
def inner : Node → Nat → Node
  | .mk v lv l r, value =>
    let inserted :=
      if v = value then
        Node.mk v lv l r
      else if value < v then
        Node.mk v lv (some (match l with
          | none => Node.new value lv
          | some n => inner n value)) r
      else
        Node.mk v lv l (some (match r with
          | none => Node.new value lv
          | some n => inner n value))
    split (skew inserted)

/-- `Node::put`. -/
def put (t : Node) (value : Nat) : Node := inner t value

/-- In-order list of values (the value component of
`Node::collect_to_vec` / `Node::traverse`). -/
def toList : Node → List Nat
  | .mk v _ l r =>
    (match l with | none => [] | some n => toList n) ++
      v :: (match r with | none => [] | some n => toList n)

/-- In-order list of levels (the level component of `Node::collect_to_vec`). -/
def toLevels : Node → List Nat
  | .mk _ lv l r =>
    (match l with | none => [] | some n => toLevels n) ++
      lv :: (match r with | none => [] | some n => toLevels n)

/-- `Node::depth`. -/
def depth : Node → Nat
  | .mk _ _ none none => 1
  | .mk _ _ (some l) none => depth l + 1
  | .mk _ _ none (some r) => depth r + 1
  | .mk _ _ (some l) (some r) => max (depth l) (depth r) + 1

/-- The tree built from a nonempty sequence: `new_leaf` on the head,
then `put` of each later element (as in the repository's property test). -/
def build (x : Nat) (xs : List Nat) : Node := xs.foldl (fun t v => t.put v) (new_leaf x)

end Node

end AA

section AASanity

example : ((AA.Node.new_leaf 2).put 5).toList = [2, 5] := by decide

example :
    ((((((AA.Node.new_leaf 2).put 3).put 2).put 4).put 11).put 5).toList
      = [2, 3, 4, 5, 11] := by decide

example :
    ((((((AA.Node.new_leaf 2).put 3).put 2).put 4).put 11).put 5).toLevels
      = [1, 2, 1, 2, 1] := by decide

example :
    (AA.Node.build 10 [85, 15, 70, 20, 60, 30, 50, 65, 80, 90, 40, 5, 55, 35, 95, 99]).toList
      = [5, 10, 15, 20, 30, 35, 40, 50, 55, 60, 65, 70, 80, 85, 90, 95, 99] := by decide

example :
    (AA.Node.build 10 [85, 15, 70, 20, 60, 30, 50, 65, 80, 90, 40, 5, 55, 35, 95, 99]).toLevels
      = [1, 1, 2, 1, 3, 1, 1, 2, 1, 2, 1, 3, 1, 2, 1, 2, 1] := by decide

end AASanity

namespace Hash

/-- `Tuple` from `src/hash_table.rs`. -/
structure Tuple where
  key : Nat
  value : Nat
deriving DecidableEq, Repr

/-- `Bucket` from `src/hash_table.rs`. -/
structure Bucket where
  depth : Nat
  tuples : List Tuple
deriving DecidableEq, Repr

/-- `Bucket::new`. -/
def Bucket.new : Bucket := ⟨1, []⟩

/-- `Bucket::get`. -/
def Bucket.get (b : Bucket) (key : Nat) : List Nat :=
  (b.tuples.filter (fun t => t.key == key)).map (fun t => t.value)

/-- `Bucket::is_full` (`tuples.len() >= bucket_size_limit`). -/
def Bucket.is_full (b : Bucket) (bucket_size_limit : Nat) : Bool :=
  bucket_size_limit ≤ b.tuples.length

/-- `Bucket::put`. -/
def Bucket.put (b : Bucket) (key value : Nat) : Bucket :=
  { b with tuples := b.tuples ++ [⟨key, value⟩] }

/-- `HashTable` from `src/hash_table.rs`.  The `Rc<RefCell<Bucket>>`
pointers of the directory are modelled as indices into `store`, the heap
of shared buckets; two directory slots alias the same bucket exactly when
they hold the same index. -/
structure HashTable where
  depth : Nat
  directories : List Nat
  bucket_size_limit : Nat
  store : List Bucket
deriving DecidableEq, Repr

/-- `HashTable::mask`: `u32::checked_shl(1, depth).unwrap_or(0).wrapping_sub(1)`
is `2^depth - 1` for `depth < 32` and `2^32 - 1` (saturated) otherwise; the
result is and-ed with `bucket_idx`.  Faithful for all `u32` inputs
(embedded as naturals below `2^32`). -/
def mask (bucket_idx depth : Nat) : Nat :=
  Nat.land bucket_idx (if depth < 32 then 2 ^ depth - 1 else 2 ^ 32 - 1)

/-- `HashTable::split_image_idx`: `checked_shl(1, depth - 1)` overflows to
`None` (yielding `bucket_idx` unchanged) when `depth - 1 ≥ 32`, including
the wrap-around `depth = 0` case. -/
def split_image_idx (bucket_idx depth : Nat) : Nat :=
  if depth = 0 then bucket_idx
  else if depth - 1 < 32 then Nat.xor (2 ^ (depth - 1)) bucket_idx
  else bucket_idx

namespace HashTable

/-- `HashTable::new`: `resize_with(2, …)` creates two distinct empty buckets. -/
def new (bucket_size_limit : Nat) : HashTable :=
  { depth := 1, directories := [0, 1], bucket_size_limit, store := [Bucket.new, Bucket.new] }

/-- Dereference the bucket pointer of a directory slot. -/
def bucketAt (t : HashTable) (i : Nat) : Bucket :=
  t.store.getD (t.directories.getD i 0) Bucket.new

/-- `HashTable::idx`. -/
def idx (t : HashTable) (key : Nat) : Nat := mask key t.depth

/-- `HashTable::get`. -/
def get (t : HashTable) (key : Nat) : List Nat := (t.bucketAt (t.idx key)).get key

/-- `HashTable::put_simple`. -/
def put_simple (t : HashTable) (key value : Nat) : HashTable :=
  let bid := t.directories.getD (t.idx key) 0
  { t with store := t.store.set bid ((t.store.getD bid Bucket.new).put key value) }

/-- `HashTable::expand_directories`. -/
def expand_directories (t : HashTable) : HashTable :=
  let new_size := 2 ^ (t.depth + 1)
  let new_buckets := (List.range new_size).map fun new_idx =>
    t.directories.getD (mask new_idx t.depth) 0
  { t with directories := new_buckets, depth := t.depth + 1 }

/-- `HashTable::split_bucket`: the resident bucket keeps the tuples whose
`mask(key, depth)` equals the (unmasked) slot index, the rest move to a
fresh bucket installed at the single slot `split_image_idx`. -/
def split_bucket (t : HashTable) (bucket_idx : Nat) : HashTable :=
  let bid := t.directories.getD bucket_idx 0
  let b := t.store.getD bid Bucket.new
  let d := b.depth + 1
  let keep := b.tuples.filter (fun tu => mask tu.key d == bucket_idx)
  let remove := b.tuples.filter (fun tu => ¬(mask tu.key d == bucket_idx))
  let new_idx := split_image_idx bucket_idx d
  let new_bid := t.store.length
  { t with
    store := t.store.set bid ⟨d, keep⟩ ++ [⟨d, remove⟩]
    directories := t.directories.set new_idx new_bid }

/-- `HashTable::put`. -/
def put (t : HashTable) (key value : Nat) : HashTable :=
  let i := t.idx key
  let b := t.bucketAt i
  let is_full := b.is_full t.bucket_size_limit
  let needs_expansion := b.depth = t.depth
  let t' :=
    if is_full then
      (if needs_expansion then t.expand_directories else t).split_bucket i
    else t
  t'.put_simple key value

/-- Run a sequence of `put`s from left to right. -/
def putAll (t : HashTable) (ops : List (Nat × Nat)) : HashTable :=
  ops.foldl (fun t kv => t.put kv.1 kv.2) t

end HashTable

end Hash

section HashSanity

example : ((((Hash.HashTable.new 3).put 10 11).put 10 12).get 10) = [11, 12] := by decide

example :
    ((Hash.HashTable.new 3).putAll
        [(16, 16), (4, 4), (6, 6), (22, 22), (24, 24), (10, 10),
         (31, 31), (7, 7), (9, 9), (20, 20), (26, 26)]).get 26 = [26] := by decide

end HashSanity

/-- The hash-table state reached from `HashTable::new(1)` by the five
inserts `put(0,10); put(4,11); put(8,12); put(1,13); put(5,14)`.
The fourth insert stores `(1,13)` in the bucket shared by slots
`1,3,5,7` (local depth 1, global depth 3); the fifth insert splits that
bucket via slot index 5, and `split_bucket` compares `mask(key, 2) == 5`,
which no key can satisfy, so every tuple — including `(1,13)` — is moved
to the single split-image slot `7`. -/
def hashBugState : Hash.HashTable :=
  (Hash.HashTable.new 1).putAll [(0, 10), (4, 11), (8, 12), (1, 13), (5, 14)]

/-- **C2** (refutation at a concrete input): starting from
`HashTable::new(1)` (bucket size limit `B = 1 ≥ 1`), after
`put(0,10); put(4,11); put(8,12); put(1,13); put(5,14)` the call `get(1)`
returns `[]`, not the inserted value sequence `[13]`: retrieval loses a
tuple inserted under key `1`. -/
theorem c2_get_loses_inserted_value :
    hashBugState.get 1 = [] ∧ hashBugState.get 1 ≠ [13] := by decide

/-- **C6** (refutation at a concrete input): in the state reached by
`put(0,10); put(4,11); put(8,12); put(1,13); put(5,14)` from
`HashTable::new(1)`, the bucket referenced by directory slot `3` has local
depth `2` while the global depth is `3`, yet it is referenced by `3`
directory slots instead of the claimed `2^(3-2) = 2`; moreover the bucket
referenced by slot `7` stores key `1`, whose low `2` bits are `1`, not
`7 mod 2^2 = 3`. -/
theorem c6_directory_invariant_broken :
    (hashBugState.depth = 3 ∧ (hashBugState.bucketAt 3).depth = 2) ∧
    hashBugState.directories.count (hashBugState.directories.getD 3 0) = 3 ∧
    (2 : Nat) ^ (hashBugState.depth - (hashBugState.bucketAt 3).depth) = 2 ∧
    ((hashBugState.bucketAt 7).depth = 2 ∧
      (hashBugState.bucketAt 7).tuples.map (fun tu => tu.key) = [1] ∧
      Hash.mask 1 2 ≠ 7 % 2 ^ 2) := by decide

/-- Modelled from the spec: `src/buffer/constants.rs` is absent from the
sources (only its users are present); the spec fixes `PAGE_SIZE` as a
compile-time power-of-two constant, typically 4096. -/
def PAGE_SIZE : Nat := 4096

namespace DiskManager

/-- The state of the backing file wrapped by `UnsafeDiskManager`: its
length and its contents (`bytes i` is meaningful for `i < len`). -/
structure FileState where
  len : Nat
  bytes : Nat → Nat

/-- A freshly created file (`TempFile::new` hands `DiskManager::new` an
empty file). -/
def FileState.empty : FileState := ⟨0, fun _ => 0⟩

/-- `DiskManager::offset`. -/
def offset (page_id : Nat) : Nat := page_id * PAGE_SIZE

/-- `DiskManager::write` as the code behaves on Linux: `DiskManager::new`
opens the file with `append(true)`, and `pwrite` (the system call behind
`FileExt::write_all_at`) then appends to the end of the file regardless of
the offset argument — the behaviour documented for `write_at` on files
opened with `O_APPEND`.  The buffer is `PAGE_SIZE` bytes. -/
def write (f : FileState) (_page_id : Nat) (buf : Nat → Nat) : FileState :=
  ⟨f.len + PAGE_SIZE, fun i => if i < f.len then f.bytes i else buf (i - f.len)⟩

/-- `DiskManager::write` under the positional contract the code intends
(and gets on platforms where `pwrite` honours its offset even with
`O_APPEND`): `PAGE_SIZE` bytes placed at `offset page_id`, zero-filling
any gap past the old end of file. -/
def write_positional (f : FileState) (page_id : Nat) (buf : Nat → Nat) : FileState :=
  ⟨max f.len (offset page_id + PAGE_SIZE),
   fun i =>
     if offset page_id ≤ i ∧ i < offset page_id + PAGE_SIZE then buf (i - offset page_id)
     else if i < f.len then f.bytes i else 0⟩

/-- `DiskManager::read`: `read_at` at `offset page_id` into a `PAGE_SIZE`
buffer, zero-filling everything not supplied by the file. -/
def read (f : FileState) (page_id : Nat) : Nat → Nat :=
  fun i => if i < PAGE_SIZE ∧ offset page_id + i < f.len then f.bytes (offset page_id + i) else 0

end DiskManager

/-- **C7** (refutation at a concrete input, plus the intended behaviour):
writing page `1` of a fresh empty file and reading it back returns the
all-zero buffer, not the written bytes, because the file is opened with
`append(true)` and Linux `pwrite` then ignores the offset: the bytes land
at offset `0`, not `1 × PAGE_SIZE`.  Under the positional semantics the
claim (and the repository's own test `should_read_write_page_at_non_0`)
describes, the read returns the written bytes. -/
theorem c7_append_mode_defeats_positional_write :
    (∀ i, DiskManager.read (DiskManager.write DiskManager.FileState.empty 1 (fun _ => 7)) 1 i = 0) ∧
    (∀ i, i < PAGE_SIZE →
      DiskManager.read
        (DiskManager.write_positional DiskManager.FileState.empty 1 (fun _ => 7)) 1 i = 7) ∧
    (7 : Nat) ≠ 0 := by
  refine ⟨fun i => ?_, fun i hi => ?_, by decide⟩
  · simp only [DiskManager.read, DiskManager.write, DiskManager.FileState.empty,
      DiskManager.offset, PAGE_SIZE]
    rw [if_neg (by omega)]
  · simp only [DiskManager.read, DiskManager.write_positional, DiskManager.FileState.empty,
      DiskManager.offset, PAGE_SIZE] at hi ⊢
    rw [if_pos (by omega), if_pos (by omega)]

namespace Buffer

/-- `PageData` (`[u8; PAGE_SIZE]`), as a list of bytes. -/
abbrev PageData := List Nat

/-- The all-zero page buffer. -/
def zeroData : PageData := List.replicate PAGE_SIZE 0

/-- `UnsafePage` from `src/buffer/page.rs`.  A Rust `Page` is an
`Arc<RwLock<UnsafePage>>` handle: every clone aliases the same cell, so
the model works directly on the per-frame cell and represents a handle by
the frame index. -/
structure Page where
  data : PageData
  page_id : Option Nat
  is_dirty : Bool
  pin_count : Nat
deriving DecidableEq

namespace Page

/-- `Page::new`. -/
def new : Page := ⟨zeroData, none, false, 0⟩

/-- `Page::set_dirty` (plain assignment). -/
def set_dirty (p : Page) (is_dirty : Bool) : Page := { p with is_dirty }

/-- `Page::pin`. -/
def pin (p : Page) : Page := { p with pin_count := p.pin_count + 1 }

/-- `Page::unpin`: `pin_count -= 1` on a `u32`; at zero the subtraction
underflows, a panic under Rust's checked arithmetic, modelled as `none`. -/
def unpin (p : Page) : Option Page :=
  if p.pin_count = 0 then none else some { p with pin_count := p.pin_count - 1 }

/-- `Page::reset`: clears the page id, zeroes the buffer (`fill(0)` keeps
its length) and clears the dirty flag; the pin count is untouched. -/
def reset (p : Page) : Page :=
  { p with page_id := none, data := List.replicate p.data.length 0, is_dirty := false }

end Page

/-- `Node` from `src/buffer/lru.rs`. -/
structure LRUNode where
  next : Option Nat
  previous : Option Nat
deriving DecidableEq

/-- Association-list model of `HashMap`: lookup of the most recent binding. -/
def alookup {β : Type} : List (Nat × β) → Nat → Option β
  | [], _ => none
  | e :: es, k => if e.1 = k then some e.2 else alookup es k

/-- `HashMap::contains_key`. -/
def acontains {β : Type} (m : List (Nat × β)) (k : Nat) : Bool := (alookup m k).isSome

/-- `HashMap::insert` (replaces any existing binding). -/
def ainsert {β : Type} (m : List (Nat × β)) (k : Nat) (v : β) : List (Nat × β) :=
  (k, v) :: m.filter (fun e => e.1 != k)

/-- `HashMap::remove`. -/
def aremove {β : Type} (m : List (Nat × β)) (k : Nat) : List (Nat × β) :=
  m.filter (fun e => e.1 != k)

/-- `HashMap::get_mut` followed by a field update (the call sites
`unwrap`, and are only reached with the key present). -/
def aupdate {β : Type} (m : List (Nat × β)) (k : Nat) (f : β → β) : List (Nat × β) :=
  m.map (fun e => if e.1 = k then (k, f e.2) else e)

/-- `UnsafeLRU` from `src/buffer/lru.rs`: a doubly-linked list of frame
ids threaded through `map`. -/
structure LRU where
  map : List (Nat × LRUNode)
  first : Option Nat
  last : Option Nat
deriving DecidableEq

namespace LRU

/-- `LRU::new`. -/
def new : LRU := ⟨[], none, none⟩

/-- `LRU::add`: insert at the front if not present (no-op otherwise). -/
def add (l : LRU) (frame_id : Nat) : LRU :=
  if acontains l.map frame_id then l
  else
    let m := ainsert l.map frame_id ⟨l.first, none⟩
    match l.first with
    | some current_first =>
      { map := aupdate m current_first (fun nd => { nd with previous := some frame_id })
        first := some frame_id, last := l.last }
    | none => { map := m, first := some frame_id, last := some frame_id }

/-- `LRU::remove`. -/
def remove (l : LRU) (frame_id : Nat) : LRU :=
  match alookup l.map frame_id with
  | none => l
  | some nd =>
    let m := aremove l.map frame_id
    let m := match nd.previous with
      | some p => aupdate m p (fun x => { x with next := nd.next })
      | none => m
    let m := match nd.next with
      | some nx => aupdate m nx (fun x => { x with previous := nd.previous })
      | none => m
    { map := m
      first := if l.first = some frame_id then nd.next else l.first
      last := if l.last = some frame_id then nd.previous else l.last }

/-- `LRU::remove_last`: detach and return the tail. -/
def remove_last (l : LRU) : LRU × Option Nat :=
  match l.last with
  | none => (l, none)
  | some frame_id =>
    match alookup l.map frame_id with
    | some nd =>
      let m := aremove l.map frame_id
      let m := match nd.previous with
        | some p => aupdate m p (fun x => { x with next := none })
        | none => m
      ({ map := m
         first := if l.first = some frame_id then none else l.first
         last := nd.previous }, some frame_id)
    | none => ({ l with last := none }, some frame_id)

end LRU

/-- `UnsafeBufferPoolInstance` from `src/buffer/buffer_pool_instance.rs`.
The backing file of the `DiskManager` is modelled at page granularity as
the list of page buffers in append order: `DiskManager::write` calls
`write_all_at` (`pwrite`) on a file opened with `append(true)`, which on
Linux appends at end-of-file *ignoring the offset* (see `DiskManager` and
C7), and every write is exactly one page, so the file is always a whole
number of pages and each write appends one entry.  `DiskManager::read`
reads at `page_id * PAGE_SIZE` and zero-fills past end-of-file, i.e.
indexes the list with a zero-page default. -/
structure Pool where
  lru : LRU
  disk : List PageData
  next_page_id : Nat
  pages : List Page
  free_list : List Nat
  page_table : List (Nat × Nat)

namespace Pool

/-- `BufferPoolInstance::new`: all frames fresh, free list `0..size`,
empty page table, empty LRU, empty backing file (reads give zeros). -/
def init (size : Nat) (next_page_id : Nat) : Pool :=
  { lru := LRU.new, disk := [], next_page_id
    pages := List.replicate size Page.new
    free_list := List.range size, page_table := [] }

/-- The frame cell behind a handle (`self.pages[frame_id]`, where every
`clone` aliases the same cell). -/
def getPage (s : Pool) (f : Nat) : Page := s.pages.getD f Page.new

def setPage (s : Pool) (f : Nat) (p : Page) : Pool := { s with pages := s.pages.set f p }

def updPage (s : Pool) (f : Nat) (g : Page → Page) : Pool := s.setPage f (g (s.getPage f))

/-- `UnsafeBufferPoolInstance::find_page`. -/
def find_page (s : Pool) (page_id : Nat) : Option (Nat × Page) :=
  (alookup s.page_table page_id).map (fun f => (f, s.getPage f))

/-- `UnsafeBufferPoolInstance::write_page`: flush the frame via
`DiskManager::write` if it is dirty.  The code `unwrap`s the page id of a
dirty frame; a dirty frame always carries its page id (its `reset` clears
both together), so the `none` branch is unreachable and modelled as a
no-op.  The write passes `offset(page_id)`, but the `O_APPEND` file
ignores it: the page is appended at end-of-file. -/
def write_page (s : Pool) (f : Nat) : Pool :=
  let pg := s.getPage f
  if pg.is_dirty then
    match pg.page_id with
    | some _ => { s with disk := s.disk ++ [pg.data] }
    | none => s
  else s

/-- `BufferPoolInstance::flush_page`. -/
def flush_page (s : Pool) (page_id : Nat) : Pool × Bool :=
  match s.find_page page_id with
  | some (f, _) => (s.write_page f, true)
  | none => (s, false)

/-- `UnsafeBufferPoolInstance::find_fresh_page`: pop the back of the free
list, else evict the LRU tail (flush if dirty, drop its page-table entry,
reset); the frame is pinned before being handed out. -/
def find_fresh_page (s : Pool) : Pool × Option Nat :=
  match s.free_list.getLast? with
  | some frame_id =>
    (({ s with free_list := s.free_list.dropLast }).updPage frame_id Page.pin, some frame_id)
  | none =>
    match s.lru.remove_last with
    | (lru', some frame_id) =>
      let s := { s with lru := lru' }
      let s := s.write_page frame_id
      let s := match (s.getPage frame_id).page_id with
        | some pid => { s with page_table := aremove s.page_table pid }
        | none => s
      (s.updPage frame_id (fun p => p.reset.pin), some frame_id)
    | (lru', none) => ({ s with lru := lru' }, none)

/-- `UnsafeBufferPoolInstance::allocate_page`. -/
def allocate_page (inc : Nat → Nat) (s : Pool) : Pool × Nat :=
  ({ s with next_page_id := inc s.next_page_id }, s.next_page_id)

/-- `BufferPoolInstance::new_page`; the returned handle is the frame id. -/
def new_page (inc : Nat → Nat) (s : Pool) : Pool × Option Nat :=
  match s.find_fresh_page with
  | (s, some frame_id) =>
    let (s, page_id) := s.allocate_page inc
    let s := { s with page_table := ainsert s.page_table page_id frame_id }
    (s.updPage frame_id (fun p => { p with page_id := some page_id }), some frame_id)
  | (s, none) => (s, none)

/-- `BufferPoolInstance::fetch_page`; the returned handle is the frame id. -/
def fetch_page (s : Pool) (page_id : Nat) : Pool × Option Nat :=
  match s.find_page page_id with
  | some (frame_id, _) =>
    let s := { s with lru := s.lru.remove frame_id }
    (s.updPage frame_id Page.pin, some frame_id)
  | none =>
    match s.find_fresh_page with
    | (s, some frame_id) =>
      let s := { s with lru := s.lru.remove frame_id }
      let s := { s with page_table := ainsert s.page_table page_id frame_id }
      let s := s.updPage frame_id (fun p => { p with page_id := some page_id })
      (s.updPage frame_id (fun p => { p with data := s.disk.getD page_id zeroData }),
        some frame_id)
    | (s, none) => (s, none)

/-- `BufferPoolInstance::unpin_page`, with the possible `Page::unpin`
underflow propagated as `none`: filter on a nonzero pin count, then
unpin, assign the dirty flag, add the frame to the LRU list when the pin
count reached zero, and flush if dirty. -/
def unpinPageAux (s : Pool) (page_id : Nat) (is_dirty : Bool) : Option (Pool × Bool) :=
  match s.find_page page_id with
  | some (frame_id, pg) =>
    if pg.pin_count ≠ 0 then
      match pg.unpin with
      | some pg' =>
        let pg2 := pg'.set_dirty is_dirty
        let s := s.setPage frame_id pg2
        let s := if pg2.pin_count = 0 then { s with lru := s.lru.add frame_id } else s
        some (s.write_page frame_id, true)
      | none => none
    else some (s, false)
  | none => some (s, false)

/-- `BufferPoolInstance::unpin_page` (total form; `unpinPageAux` is shown
below to never hit the underflow branch). -/
def unpin_page (s : Pool) (page_id : Nat) (is_dirty : Bool) : Pool × Bool :=
  (s.unpinPageAux page_id is_dirty).getD (s, false)

/-- `BufferPoolInstance::delete_page`: on an unpinned resident page,
reset the frame, drop the page-table entry and push the frame on the free
list.  (The frame is *not* removed from the LRU list.) -/
def delete_page (s : Pool) (page_id : Nat) : Pool × Bool :=
  match s.find_page page_id with
  | some (frame_id, pg) =>
    if pg.pin_count = 0 then
      let s := s.updPage frame_id Page.reset
      let s := { s with page_table := aremove s.page_table page_id }
      ({ s with free_list := s.free_list ++ [frame_id] }, true)
    else (s, false)
  | none => (s, false)

/-- A caller writing `buf` through `Page::access_page_data` on a handle
of the currently resident page `page_id` (handles alias the frame). -/
def access_write (s : Pool) (page_id : Nat) (buf : PageData) : Pool :=
  match s.find_page page_id with
  | some (frame_id, _) => s.updPage frame_id (fun p => { p with data := buf })
  | none => s

/-- `Page::access_page_data` writing `buf` through a directly held frame
handle. -/
def write_through (s : Pool) (frame_id : Nat) (buf : PageData) : Pool :=
  s.updPage frame_id (fun p => { p with data := buf })

end Pool

/-- One public buffer-pool operation. -/
inductive Op : Type where
  | new_page : Op
  | fetch_page (page_id : Nat) : Op
  | unpin_page (page_id : Nat) (is_dirty : Bool) : Op
  | flush_page (page_id : Nat) : Op
  | delete_page (page_id : Nat) : Op
  | access_write (page_id : Nat) (buf : PageData) : Op

/-- Effect of one operation on the pool state. -/
def step (inc : Nat → Nat) (s : Pool) : Op → Pool
  | .new_page => (s.new_page inc).1
  | .fetch_page pid => (s.fetch_page pid).1
  | .unpin_page pid d => (s.unpin_page pid d).1
  | .flush_page pid => (s.flush_page pid).1
  | .delete_page pid => (s.delete_page pid).1
  | .access_write pid buf => s.access_write pid buf

/-- Run a sequence of public operations. -/
def run (inc : Nat → Nat) (s : Pool) (ops : List Op) : Pool := ops.foldl (step inc) s

end Buffer

namespace Buffer

/-- Flushing a frame touches only the disk component of the pool. -/
theorem Pool.write_page_pages (t : Pool) (f : Nat) : (t.write_page f).pages = t.pages := by
  unfold Pool.write_page
  dsimp only
  split
  · split <;> rfl
  · rfl

/-- Reading back a frame cell just stored at a valid index. -/
theorem Pool.getPage_setPage_self (s : Pool) (f : Nat) (p : Page)
    (hf : f < s.pages.length) : (s.setPage f p).getPage f = p := by
  simp [Pool.getPage, Pool.setPage, List.getD_eq_getElem?_getD,
    List.getElem?_set_eq_of_lt, hf]

/-- `unpin_page` never reaches the `Page::unpin` underflow: the call is
guarded by the `pin_count != 0` filter. -/
theorem Pool.unpinPageAux_isSome (s : Pool) (page_id : Nat) (is_dirty : Bool) :
    (s.unpinPageAux page_id is_dirty).isSome = true := by
  unfold Pool.unpinPageAux
  cases h : s.find_page page_id with
  | none => rfl
  | some fp =>
    simp only
    split
    · next hpin =>
      rw [show fp.2.unpin = some { fp.2 with pin_count := fp.2.pin_count - 1 } from
        if_neg hpin]
      rfl
    · rfl

end Buffer

/-- **C3** (refutation at a concrete input): with a pool of one frame,
after `new_page()` (returns page 0), `unpin_page(0,false)`,
`delete_page(0)` and a second `new_page()` (returns page 1, reusing frame
0 from the free list), frame 0 has pin count `1` and holds page `1`, yet
it is still in the LRU list and `remove_last` selects it as the victim;
`fetch_page(0)` then evicts it: page `1` is removed from the page table
and the frame is reset and handed out while its pin count was nonzero
(it ends at `2`).  A pinned frame *is* selected for eviction. -/
def c3State : Buffer.Pool :=
  Buffer.run Nat.succ (Buffer.Pool.init 1 0)
    [.new_page, .unpin_page 0 false, .delete_page 0, .new_page]

theorem c3_pinned_frame_selected_for_eviction :
    ((c3State.getPage 0).pin_count = 1 ∧ (c3State.getPage 0).page_id = some 1) ∧
    c3State.lru.remove_last.2 = some 0 ∧
    ((c3State.fetch_page 0).2 = some 0 ∧
      Buffer.alookup c3State.page_table 1 = some 0 ∧
      Buffer.alookup (c3State.fetch_page 0).1.page_table 1 = none ∧
      ((c3State.fetch_page 0).1.getPage 0).pin_count = 2 ∧
      ((c3State.fetch_page 0).1.getPage 0).page_id = some 0) := by decide

/-- **C4** (refutation at a concrete input): with a pool of one frame,
after `new_page()`, `unpin_page(0,false)` and `delete_page(0)`
(`delete_page` does not remove the frame from the LRU list), frame `0` is
in the LRU list although the page table is empty — and it is on the free
list at the same time.  The claimed membership equivalence fails. -/
def c4State : Buffer.Pool :=
  Buffer.run Nat.succ (Buffer.Pool.init 1 0)
    [.new_page, .unpin_page 0 false, .delete_page 0]

theorem c4_lru_membership_invariant_broken :
    Buffer.acontains c4State.lru.map 0 = true ∧
    c4State.page_table = [] ∧
    (c4State.getPage 0).pin_count = 0 ∧
    c4State.free_list = [0] := by decide

/-- **C5** (counterexample): with a pool of one frame, after `new_page()`,
`unpin_page(0,true)` and `fetch_page(0)`, the resident page `0` has pin
count `1` and its dirty flag is `true`; the claim says the flag is still
`true` after `unpin_page(0,false)`, but `unpin_page` assigns the supplied
flag, so it becomes `false`. -/
theorem c5_unpin_false_clears_dirty :
    let s := Buffer.run Nat.succ (Buffer.Pool.init 1 0)
      [.new_page, .unpin_page 0 true, .fetch_page 0]
    ((s.getPage 0).is_dirty = true ∧ (s.getPage 0).pin_count = 1) ∧
    (s.unpin_page 0 false).2 = true ∧
    ((s.unpin_page 0 false).1.getPage 0).is_dirty = false := by decide

/-- **C5 (amended)**: for every resident page `p` with nonzero pin count
(at a valid frame index), `unpin_page(p, is_dirty)` *assigns* the
supplied flag to the page's dirty flag — afterwards the flag equals the
argument, whatever it was before; in particular `unpin_page(p, false)` on
a dirty page leaves it clean. -/
theorem c5_amended_unpin_assigns_dirty (s : Buffer.Pool) (p : Nat) (d : Bool)
    (f : Nat)
    (hfind : Buffer.alookup s.page_table p = some f)
    (hpin : (s.getPage f).pin_count ≠ 0)
    (hf : f < s.pages.length) :
    ((s.unpin_page p d).1.getPage f).is_dirty = d := by
  set pg : Buffer.Page := s.getPage f with hpg
  have hfind2 : s.find_page p = some (f, pg) := by
    unfold Buffer.Pool.find_page
    rw [hfind]
    rfl
  have key : ∀ t : Buffer.Pool,
      t.pages = (s.setPage f (Buffer.Page.set_dirty
        { pg with pin_count := pg.pin_count - 1 } d)).pages →
      ((t.write_page f).getPage f).is_dirty = d := by
    intro t ht
    have h2 : (t.write_page f).getPage f
        = Buffer.Page.set_dirty { pg with pin_count := pg.pin_count - 1 } d := by
      show ((t.write_page f).pages.getD f Buffer.Page.new) = _
      rw [Buffer.Pool.write_page_pages, ht]
      exact Buffer.Pool.getPage_setPage_self s f _ hf
    rw [h2]
    rfl
  unfold Buffer.Pool.unpin_page Buffer.Pool.unpinPageAux
  rw [hfind2]
  simp only [if_pos hpin,
    show pg.unpin = some { pg with pin_count := pg.pin_count - 1 } from if_neg hpin]
  split
  · exact key _ rfl
  · exact key _ rfl

/-- Witness for the amended C5: in the concrete state of the
counterexample, `unpin_page(0, false)` leaves the dirty flag `false`. -/
theorem c5_amended_witness :
    let s := Buffer.run Nat.succ (Buffer.Pool.init 1 0)
      [.new_page, .unpin_page 0 true, .fetch_page 0]
    ((s.unpin_page 0 false).1.getPage 0).is_dirty = false := by
  exact c5_amended_unpin_assigns_dirty _ 0 false 0 (by decide) (by decide) (by decide)

/-- **C10**: `Page::unpin` panics (underflows its `u32` pin counter)
exactly when the pin count is zero — it neither saturates nor reports an
error — while `BufferPoolInstance::unpin_page` guards its only `unpin`
call with the `pin_count != 0` filter, so the underflow branch is
unreachable from `unpin_page`. -/
theorem c10_unpin_underflow_guarded :
    (∀ pg : Buffer.Page, (pg.unpin = none ↔ pg.pin_count = 0)) ∧
    (∀ (s : Buffer.Pool) (page_id : Nat) (is_dirty : Bool),
      (s.unpinPageAux page_id is_dirty).isSome = true) := by
  constructor
  · intro pg
    unfold Buffer.Page.unpin
    split
    · next h => simpa using h
    · next h => simpa using h
  · exact Buffer.Pool.unpinPageAux_isSome

namespace Buffer

theorem alookup_mem {β : Type} {m : List (Nat × β)} {k : Nat} {v : β}
    (h : alookup m k = some v) : (k, v) ∈ m := by
  induction m with
  | nil => exact absurd h (by simp [alookup])
  | cons e es ih =>
    rw [alookup] at h
    by_cases he : e.1 = k
    · rw [if_pos he] at h
      obtain ⟨k1, v1⟩ := e
      subst he
      cases h
      exact List.mem_cons_self _ _
    · rw [if_neg he] at h
      exact List.mem_cons_of_mem _ (ih h)

theorem alookup_filter_ne {β : Type} (m : List (Nat × β)) (k x : Nat) (hx : x ≠ k) :
    alookup (m.filter (fun e => e.1 != k)) x = alookup m x := by
  induction m with
  | nil => rfl
  | cons e es ih =>
    by_cases he : e.1 = k
    · rw [List.filter_cons_of_neg (by simpa using he), ih, alookup,
        if_neg (by rw [he]; exact fun h => hx h.symm)]
    · rw [List.filter_cons_of_pos (by simpa using he), alookup, alookup, ih]

theorem alookup_filter_self {β : Type} (m : List (Nat × β)) (k : Nat) :
    alookup (m.filter (fun e => e.1 != k)) k = none := by
  induction m with
  | nil => rfl
  | cons e es ih =>
    by_cases he : e.1 = k
    · rw [List.filter_cons_of_neg (by simpa using he), ih]
    · rw [List.filter_cons_of_pos (by simpa using he), alookup, if_neg he, ih]

theorem alookup_ainsert {β : Type} (m : List (Nat × β)) (k : Nat) (v : β) (x : Nat) :
    alookup (ainsert m k v) x = if x = k then some v else alookup m x := by
  unfold ainsert
  by_cases hx : x = k
  · rw [if_pos hx, alookup, if_pos hx.symm]
  · rw [if_neg hx, alookup, if_neg (fun h => hx h.symm), alookup_filter_ne _ _ _ hx]

theorem alookup_aremove {β : Type} (m : List (Nat × β)) (k : Nat) (x : Nat) :
    alookup (aremove m k) x = if x = k then none else alookup m x := by
  unfold aremove
  by_cases hx : x = k
  · rw [if_pos hx, hx, alookup_filter_self]
  · rw [if_neg hx, alookup_filter_ne _ _ _ hx]

theorem mem_aupdate {β : Type} {m : List (Nat × β)} {k : Nat} {f : β → β} {e : Nat × β}
    (h : e ∈ aupdate m k f) :
    e ∈ m ∨ ∃ nd, (k, nd) ∈ m ∧ e = (k, f nd) := by
  unfold aupdate at h
  rcases List.mem_map.1 h with ⟨e', he', heq⟩
  by_cases hk : e'.1 = k
  · rw [if_pos hk] at heq
    right
    exact ⟨e'.2, by rw [← hk]; simpa using he', heq.symm⟩
  · rw [if_neg hk] at heq
    exact Or.inl (heq ▸ he')

theorem mem_ainsert {β : Type} {m : List (Nat × β)} {k : Nat} {v : β} {e : Nat × β}
    (h : e ∈ ainsert m k v) : e = (k, v) ∨ e ∈ m := by
  unfold ainsert at h
  rcases List.mem_cons.1 h with h | h
  · exact Or.inl h
  · exact Or.inr (List.mem_of_mem_filter h)

theorem mem_aremove {β : Type} {m : List (Nat × β)} {k : Nat} {e : Nat × β}
    (h : e ∈ aremove m k) : e ∈ m := List.mem_of_mem_filter h

theorem aupdate_pred {β : Type} {P : Nat × β → Prop} {m : List (Nat × β)} {k : Nat}
    {f : β → β} (hm : ∀ e ∈ m, P e) (hf : ∀ nd, (k, nd) ∈ m → P (k, f nd)) :
    ∀ e ∈ aupdate m k f, P e := by
  intro e he
  rcases mem_aupdate he with he | ⟨nd, hnd, rfl⟩
  · exact hm e he
  · exact hf nd hnd

theorem ainsert_pred {β : Type} {P : Nat × β → Prop} {m : List (Nat × β)} {k : Nat}
    {v : β} (hm : ∀ e ∈ m, P e) (hkv : P (k, v)) : ∀ e ∈ ainsert m k v, P e := by
  intro e he
  rcases mem_ainsert he with rfl | he
  · exact hkv
  · exact hm e he

theorem aremove_pred {β : Type} {P : Nat × β → Prop} {m : List (Nat × β)} {k : Nat}
    (hm : ∀ e ∈ m, P e) : ∀ e ∈ aremove m k, P e :=
  fun e he => hm e (mem_aremove he)

/-- Equation for `LRU::add` when the id is already present. -/
theorem LRU.add_eq_contains (l : LRU) (g : Nat) (hc : acontains l.map g = true) :
    l.add g = l := by
  unfold LRU.add
  rw [if_pos hc]

/-- Equation for `LRU::add` on a nonempty list. -/
theorem LRU.add_eq_some (l : LRU) (g cf : Nat) (hc : ¬ acontains l.map g = true)
    (hf : l.first = some cf) :
    l.add g = { map := aupdate (ainsert l.map g ⟨some cf, none⟩) cf
                  (fun nd => { nd with previous := some g })
                first := some g, last := l.last } := by
  unfold LRU.add
  rw [if_neg hc, hf]

/-- Equation for `LRU::add` on an empty list. -/
theorem LRU.add_eq_none (l : LRU) (g : Nat) (hc : ¬ acontains l.map g = true)
    (hf : l.first = none) :
    l.add g = { map := ainsert l.map g ⟨none, none⟩
                first := some g, last := some g } := by
  unfold LRU.add
  rw [if_neg hc, hf]

/-- Equation for `LRU::remove` of an absent id. -/
theorem LRU.remove_eq_none (l : LRU) (g : Nat) (h : alookup l.map g = none) :
    l.remove g = l := by
  unfold LRU.remove
  rw [h]

/-- Equation for `LRU::remove` of a present id. -/
theorem LRU.remove_eq_some (l : LRU) (g : Nat) (nd : LRUNode)
    (h : alookup l.map g = some nd) :
    l.remove g =
      { map :=
          (match nd.next with
            | some nx => aupdate
                (match nd.previous with
                  | some p => aupdate (aremove l.map g) p (fun x => { x with next := nd.next })
                  | none => aremove l.map g)
                nx (fun x => { x with previous := nd.previous })
            | none =>
              match nd.previous with
              | some p => aupdate (aremove l.map g) p (fun x => { x with next := nd.next })
              | none => aremove l.map g)
        first := if l.first = some g then nd.next else l.first
        last := if l.last = some g then nd.previous else l.last } := by
  unfold LRU.remove
  rw [h]

/-- Equation for `LRU::remove_last` of an empty list. -/
theorem LRU.remove_last_eq_nolast (l : LRU) (h : l.last = none) :
    l.remove_last = (l, none) := by
  unfold LRU.remove_last
  rw [h]

/-- Equation for `LRU::remove_last` when the tail is a map key. -/
theorem LRU.remove_last_eq_found (l : LRU) (fid : Nat) (nd : LRUNode)
    (hl : l.last = some fid) (hm : alookup l.map fid = some nd) :
    l.remove_last =
      ({ map :=
          (match nd.previous with
            | some p => aupdate (aremove l.map fid) p (fun x => { x with next := none })
            | none => aremove l.map fid)
         first := if l.first = some fid then none else l.first
         last := nd.previous }, some fid) := by
  unfold LRU.remove_last
  rw [hl]
  dsimp only
  rw [hm]

/-- Equation for `LRU::remove_last` when the tail is not a map key. -/
theorem LRU.remove_last_eq_notfound (l : LRU) (fid : Nat)
    (hl : l.last = some fid) (hm : alookup l.map fid = none) :
    l.remove_last = ({ l with last := none }, some fid) := by
  unfold LRU.remove_last
  rw [hl]
  dsimp only
  rw [hm]

/-- Both pointers of an LRU map entry, and its key, are below `n`. -/
def NB (n : Nat) (e : Nat × LRUNode) : Prop :=
  e.1 < n ∧ (∀ x, e.2.next = some x → x < n) ∧ (∀ x, e.2.previous = some x → x < n)

/-- Every frame id stored anywhere in the LRU structure (keys, pointers,
head, tail) is below `n`. -/
def LRU.Bounded (l : LRU) (n : Nat) : Prop :=
  (∀ e ∈ l.map, NB n e) ∧ (∀ x, l.first = some x → x < n) ∧ (∀ x, l.last = some x → x < n)

theorem LRU.bounded_new (n : Nat) : LRU.Bounded LRU.new n := by
  unfold LRU.Bounded LRU.new
  refine ⟨?_, ?_, ?_⟩
  · intro e he
    exact absurd he (List.not_mem_nil _)
  · intro x hx
    cases hx
  · intro x hx
    cases hx

theorem LRU.Bounded.add {l : LRU} {n : Nat} (h : l.Bounded n) {g : Nat} (hg : g < n) :
    (l.add g).Bounded n := by
  obtain ⟨hmap, hfirst, hlast⟩ := h
  by_cases hc : acontains l.map g = true
  · rw [LRU.add_eq_contains l g hc]
    exact ⟨hmap, hfirst, hlast⟩
  cases hf : l.first with
  | some cf =>
    rw [LRU.add_eq_some l g cf hc hf]
    unfold LRU.Bounded
    dsimp only
    refine ⟨?_, ?_, ?_⟩
    · refine aupdate_pred (ainsert_pred hmap ?_) ?_
      · exact ⟨hg, fun x hx => by cases hx; exact hfirst _ hf, fun x hx => by cases hx⟩
      · intro nd hnd
        rcases mem_ainsert hnd with heq | hnd
        · have h2 : nd = ⟨some cf, none⟩ := congrArg Prod.snd heq
        -- the inserted node: previous pointer becomes `some g`
          refine ⟨hfirst _ hf, fun x hx => ?_, fun x hx => by cases hx; exact hg⟩
          rw [h2] at hx
          cases hx
          exact hfirst _ hf
        · obtain ⟨h1, h2, _⟩ := hmap _ hnd
          exact ⟨hfirst _ hf, h2, fun x hx => by cases hx; exact hg⟩
    · intro x hx
      cases hx
      exact hg
    · exact hlast
  | none =>
    rw [LRU.add_eq_none l g hc hf]
    unfold LRU.Bounded
    dsimp only
    refine ⟨?_, ?_, ?_⟩
    · refine ainsert_pred hmap ?_
      refine ⟨hg, fun x hx => ?_, fun x hx => ?_⟩ <;> cases hx
    · intro x hx
      cases hx
      exact hg
    · intro x hx
      cases hx
      exact hg

theorem LRU.Bounded.remove {l : LRU} {n : Nat} (h : l.Bounded n) (g : Nat) :
    (l.remove g).Bounded n := by
  obtain ⟨hmap, hfirst, hlast⟩ := h
  cases hl : alookup l.map g with
  | none =>
    rw [LRU.remove_eq_none l g hl]
    exact ⟨hmap, hfirst, hlast⟩
  | some nd =>
    have hnd : NB n (g, nd) := hmap _ (alookup_mem hl)
    rw [LRU.remove_eq_some l g nd hl]
    unfold LRU.Bounded
    dsimp only
    have base : ∀ e ∈ aremove l.map g, NB n e := aremove_pred hmap
    have mid : ∀ e ∈ (match nd.previous with
        | some p => aupdate (aremove l.map g) p (fun x => { x with next := nd.next })
        | none => aremove l.map g), NB n e := by
      cases hp : nd.previous with
      | none => exact base
      | some pv =>
        refine aupdate_pred base ?_
        intro nd' hnd'
        obtain ⟨h1, _, h3⟩ := base _ hnd'
        exact ⟨h1, fun x hx => hnd.2.1 x hx, h3⟩
    refine ⟨?_, ?_, ?_⟩
    · cases hnx : nd.next with
      | none =>
        rw [hnx] at mid
        dsimp only
        exact mid
      | some nx =>
        rw [hnx] at mid
        dsimp only
        refine aupdate_pred mid ?_
        intro nd' hnd'
        obtain ⟨h1, h2, _⟩ := mid _ hnd'
        exact ⟨h1, h2, fun x hx => hnd.2.2 x hx⟩
    · intro x hx
      split at hx
      · exact hnd.2.1 x hx
      · exact hfirst x hx
    · intro x hx
      split at hx
      · exact hnd.2.2 x hx
      · exact hlast x hx

theorem LRU.Bounded.remove_last {l : LRU} {n : Nat} (h : l.Bounded n) :
    (l.remove_last.1.Bounded n) ∧ (∀ g, l.remove_last.2 = some g → g < n) := by
  obtain ⟨hmap, hfirst, hlast⟩ := h
  cases hl : l.last with
  | none =>
    rw [LRU.remove_last_eq_nolast l hl]
    exact ⟨⟨hmap, hfirst, hlast⟩, fun g hg => by cases hg⟩
  | some fid =>
    have hfid : fid < n := hlast _ hl
    cases hm : alookup l.map fid with
    | some nd =>
      have hnd : NB n (fid, nd) := hmap _ (alookup_mem hm)
      rw [LRU.remove_last_eq_found l fid nd hl hm]
      have base : ∀ e ∈ aremove l.map fid, NB n e := aremove_pred hmap
      refine ⟨⟨?_, ?_, ?_⟩, fun g hg => ?_⟩
      · cases hp : nd.previous with
        | none =>
          dsimp only
          exact base
        | some pv =>
          dsimp only
          refine aupdate_pred base ?_
          intro nd' hnd'
          obtain ⟨h1, _, h3⟩ := base _ hnd'
          exact And.intro h1 (And.intro (fun x hx => by cases hx) h3)
      · intro x hx
        dsimp only at hx
        split at hx
        · cases hx
        · exact hfirst x hx
      · intro x hx
        dsimp only at hx
        exact hnd.2.2 x hx
      · dsimp only at hg
        cases hg
        exact hfid
    | none =>
      rw [LRU.remove_last_eq_notfound l fid hl hm]
      exact ⟨⟨hmap, hfirst, fun x hx => by cases hx⟩, fun g hg => by cases hg; exact hfid⟩

end Buffer

namespace Buffer

theorem Pool.getPage_setPage_ne (s : Pool) {f g : Nat} (p : Page) (h : g ≠ f) :
    (s.setPage f p).getPage g = s.getPage g := by
  simp [Pool.getPage, Pool.setPage, List.getD_eq_getElem?_getD, List.getElem?_set_ne (Ne.symm h)]

theorem Pool.getPage_ge (s : Pool) {f : Nat} (h : s.pages.length ≤ f) :
    s.getPage f = Page.new := by
  simp [Pool.getPage, List.getD_eq_getElem?_getD, List.getElem?_eq_none h]

theorem Pool.setPage_length (s : Pool) (f : Nat) (p : Page) :
    (s.setPage f p).pages.length = s.pages.length := by
  simp [Pool.setPage]

theorem Pool.updPage_length (s : Pool) (f : Nat) (g : Page → Page) :
    (s.updPage f g).pages.length = s.pages.length := by
  simp [Pool.updPage, Pool.setPage]

theorem Pool.getPage_updPage_self (s : Pool) {f : Nat} (g : Page → Page)
    (hf : f < s.pages.length) : (s.updPage f g).getPage f = g (s.getPage f) :=
  Pool.getPage_setPage_self s f _ hf

theorem Pool.getPage_updPage_ne (s : Pool) {f x : Nat} (g : Page → Page) (h : x ≠ f) :
    (s.updPage f g).getPage x = s.getPage x :=
  Pool.getPage_setPage_ne s _ h

/-- `write_page` leaves every component but the disk unchanged. -/
theorem Pool.write_page_pt (t : Pool) (f : Nat) :
    (t.write_page f).page_table = t.page_table ∧
    (t.write_page f).free_list = t.free_list ∧
    (t.write_page f).lru = t.lru ∧
    (t.write_page f).next_page_id = t.next_page_id := by
  unfold Pool.write_page
  dsimp only
  split
  · split <;> exact ⟨rfl, rfl, rfl, rfl⟩
  · exact ⟨rfl, rfl, rfl, rfl⟩

/-- Equation for `write_page` on a clean frame. -/
theorem Pool.write_page_eq_clean (s : Pool) (f : Nat)
    (h : (s.getPage f).is_dirty = false) : s.write_page f = s := by
  unfold Pool.write_page
  dsimp only
  rw [if_neg (by rw [h]; exact Bool.false_ne_true)]

/-- Equation for `write_page` on a dirty frame carrying a page id: the
page is appended at end-of-file, whatever the id. -/
theorem Pool.write_page_eq_dirty (s : Pool) (f pid : Nat)
    (hd : (s.getPage f).is_dirty = true) (hid : (s.getPage f).page_id = some pid) :
    s.write_page f = { s with disk := s.disk ++ [(s.getPage f).data] } := by
  unfold Pool.write_page
  dsimp only
  rw [if_pos hd, hid]

/-- Equation for `write_page` on a dirty frame without a page id (the
`unwrap` panic branch; unreachable in well-formed states, a no-op in the
model). -/
theorem Pool.write_page_eq_dirty_none (s : Pool) (f : Nat)
    (hd : (s.getPage f).is_dirty = true) (hid : (s.getPage f).page_id = none) :
    s.write_page f = s := by
  unfold Pool.write_page
  dsimp only
  rw [if_pos hd, hid]

/-- Equation for `find_fresh_page` when the free list is nonempty. -/
theorem Pool.find_fresh_eq_free (s : Pool) (f : Nat)
    (h : s.free_list.getLast? = some f) :
    s.find_fresh_page
      = (({ s with free_list := s.free_list.dropLast }).updPage f Page.pin, some f) := by
  unfold Pool.find_fresh_page
  rw [h]

/-- Equation for `find_fresh_page` when eviction succeeds. -/
theorem Pool.find_fresh_eq_evict (s : Pool) (f : Nat) (lru' : LRU)
    (hfree : s.free_list.getLast? = none) (hlru : s.lru.remove_last = (lru', some f)) :
    s.find_fresh_page
      = (let s1 := { s with lru := lru' }
         let s2 := s1.write_page f
         let s3 := match (s2.getPage f).page_id with
           | some pid => { s2 with page_table := aremove s2.page_table pid }
           | none => s2
         (s3.updPage f (fun p => p.reset.pin), some f)) := by
  unfold Pool.find_fresh_page
  rw [hfree]
  dsimp only
  rw [hlru]

/-- Equation for `find_fresh_page` when nothing is available. -/
theorem Pool.find_fresh_eq_none (s : Pool) (lru' : LRU)
    (hfree : s.free_list.getLast? = none) (hlru : s.lru.remove_last = (lru', none)) :
    s.find_fresh_page = ({ s with lru := lru' }, none) := by
  unfold Pool.find_fresh_page
  rw [hfree]
  dsimp only
  rw [hlru]

/-- The structural well-formedness of a pool state used by the C1
argument: the page table is consistent with the frames it points at, free
frames are blank, the free list has no duplicates, and the LRU structure
only stores valid frame ids. -/
structure Wf (s : Pool) : Prop where
  table : ∀ x f, alookup s.page_table x = some f →
    f < s.pages.length ∧ (s.getPage f).page_id = some x
  free : ∀ f ∈ s.free_list, f < s.pages.length ∧ (s.getPage f).page_id = none
  free_nodup : s.free_list.Nodup
  lru : s.lru.Bounded s.pages.length

end Buffer

namespace Buffer

theorem getLast?_not_mem_dropLast {l : List Nat} {f : Nat}
    (h : l.getLast? = some f) (hn : l.Nodup) : f ∉ l.dropLast := by
  have hne : l ≠ [] := by
    rintro rfl
    cases h
  have hsplit : l.dropLast ++ [l.getLast hne] = l := List.dropLast_append_getLast hne
  have hf : l.getLast hne = f := by
    have := List.getLast?_eq_getLast l hne
    rw [this] at h
    exact Option.some_inj.mp h
  rw [hf] at hsplit
  have : (l.dropLast ++ [f]).Nodup := by
    rw [hsplit]
    exact hn
  intro hmem
  exact (List.disjoint_of_nodup_append this) hmem (List.mem_singleton_self f)

/-- `find_fresh_page` preserves well-formedness; additionally it keeps the
next-page counter, the frame count, the page-table entries it does not
remove and the page ids it does not clear, and a returned frame is a
valid, pinned, blank frame not on the free list. -/
theorem Wf.find_fresh {s : Pool} (h : Wf s) :
    Wf s.find_fresh_page.1 ∧
    (s.find_fresh_page.1.next_page_id = s.next_page_id ∧
      s.find_fresh_page.1.pages.length = s.pages.length) ∧
    (∀ x g, alookup s.find_fresh_page.1.page_table x = some g →
      alookup s.page_table x = some g) ∧
    (∀ g y, (s.find_fresh_page.1.getPage g).page_id = some y →
      (s.getPage g).page_id = some y) ∧
    (∀ f, s.find_fresh_page.2 = some f →
      f < s.pages.length ∧ (s.find_fresh_page.1.getPage f).page_id = none ∧
      (s.find_fresh_page.1.getPage f).pin_count ≠ 0 ∧
      f ∉ s.find_fresh_page.1.free_list) := by
  cases hfree : s.free_list.getLast? with
  | some f =>
    rw [Pool.find_fresh_eq_free s f hfree]
    obtain ⟨hflen, hfid⟩ := h.free f (List.mem_of_mem_getLast? hfree)
    have hlen : (({ s with free_list := s.free_list.dropLast }).updPage f Page.pin).pages.length
        = s.pages.length := Pool.updPage_length _ _ _
    have hgSelf : (({ s with free_list := s.free_list.dropLast }).updPage f Page.pin).getPage f
        = Page.pin (s.getPage f) := Pool.getPage_updPage_self _ _ hflen
    have hgNe : ∀ g, g ≠ f →
        (({ s with free_list := s.free_list.dropLast }).updPage f Page.pin).getPage g
          = s.getPage g := fun g hg => Pool.getPage_updPage_ne _ _ hg
    refine ⟨⟨?_, ?_, ?_, ?_⟩, ⟨rfl, hlen⟩, ?_, ?_, ?_⟩
    · intro x g hx
      obtain ⟨h1, h2⟩ := h.table x g hx
      rw [hlen]
      refine ⟨h1, ?_⟩
      have hgf : g ≠ f := by
        intro hEq
        rw [hEq, hfid] at h2
        cases h2
      rw [hgNe g hgf]
      exact h2
    · intro g hg
      have hgmem : g ∈ s.free_list := (List.dropLast_sublist s.free_list).mem hg
      obtain ⟨h1, h2⟩ := h.free g hgmem
      have hgf : g ≠ f := by
        intro hEq
        exact getLast?_not_mem_dropLast hfree h.free_nodup (hEq ▸ hg)
      rw [hlen, hgNe g hgf]
      exact ⟨h1, h2⟩
    · exact (List.dropLast_sublist s.free_list).nodup h.free_nodup
    · rw [hlen]
      exact h.lru
    · intro x g hx
      exact hx
    · intro g y hgy
      by_cases hgf : g = f
      · subst hgf
        rw [hgSelf] at hgy
        exact hgy
      · rw [hgNe g hgf] at hgy
        exact hgy
    · intro f' hf'
      cases hf'
      refine ⟨hflen, ?_, ?_, ?_⟩
      · rw [hgSelf]
        exact hfid
      · rw [hgSelf]
        exact Nat.succ_ne_zero _
      · exact getLast?_not_mem_dropLast hfree h.free_nodup
  | none =>
    have hfreenil : s.free_list = [] := List.getLast?_eq_none_iff.mp hfree
    cases hlast : s.lru.remove_last with
    | mk lru' res =>
      cases res with
      | none =>
        rw [Pool.find_fresh_eq_none s lru' hfree hlast]
        have hb : lru'.Bounded s.pages.length := by
          have := (LRU.Bounded.remove_last h.lru).1
          rw [hlast] at this
          exact this
        exact ⟨⟨h.table, h.free, h.free_nodup, hb⟩, ⟨rfl, rfl⟩,
          fun x g hx => hx, fun g y hy => hy, fun f hf => by cases hf⟩
      | some f =>
        have hflen : f < s.pages.length := by
          have := (LRU.Bounded.remove_last h.lru).2 f
          rw [hlast] at this
          exact this rfl
        have hb : lru'.Bounded s.pages.length := by
          have := (LRU.Bounded.remove_last h.lru).1
          rw [hlast] at this
          exact this
        rw [Pool.find_fresh_eq_evict s f lru' hfree hlast]
        dsimp only
        set A2 : Pool := ({ s with lru := lru' }).write_page f with hA2def
        have hA2pages : A2.pages = s.pages := Pool.write_page_pages _ _
        have hA2get : ∀ g, A2.getPage g = s.getPage g := by
          intro g
          show A2.pages.getD g Page.new = s.pages.getD g Page.new
          rw [hA2pages]
        have hA2pt : A2.page_table = s.page_table := (Pool.write_page_pt _ _).1
        have hA2free : A2.free_list = s.free_list := (Pool.write_page_pt _ _).2.1
        have hA2lru : A2.lru = lru' := (Pool.write_page_pt _ _).2.2.1
        have hA2next : A2.next_page_id = s.next_page_id := (Pool.write_page_pt _ _).2.2.2
        cases hz : (A2.getPage f).page_id with
        | some z =>
          dsimp only
          have hzs : (s.getPage f).page_id = some z := by
            rw [← hA2get f]
            exact hz
          set A3 : Pool := { A2 with page_table := aremove A2.page_table z } with hA3def
          have hA3len : A3.pages.length = s.pages.length := by
            show A2.pages.length = s.pages.length
            rw [hA2pages]
          have hA3get : ∀ g, A3.getPage g = s.getPage g := fun g => hA2get g
          have hlen : (A3.updPage f (fun p => p.reset.pin)).pages.length = s.pages.length := by
            rw [Pool.updPage_length]
            exact hA3len
          have hgSelf : (A3.updPage f (fun p => p.reset.pin)).getPage f
              = ((s.getPage f).reset.pin) := by
            rw [Pool.getPage_updPage_self _ _ (by rw [hA3len]; exact hflen), hA3get]
          have hgNe : ∀ g, g ≠ f →
              (A3.updPage f (fun p => p.reset.pin)).getPage g = s.getPage g :=
            fun g hg => by rw [Pool.getPage_updPage_ne _ _ hg, hA3get]
          refine ⟨⟨?_, ?_, ?_, ?_⟩, ⟨hA2next, hlen⟩, ?_, ?_, ?_⟩
          · intro x g hx
            have hx' : alookup (aremove s.page_table z) x = some g := by
              rw [← hA2pt]
              exact hx
            rw [alookup_aremove] at hx'
            by_cases hxz : x = z
            · rw [if_pos hxz] at hx'
              cases hx'
            · rw [if_neg hxz] at hx'
              obtain ⟨h1, h2⟩ := h.table x g hx'
              have hgf : g ≠ f := by
                intro hEq
                rw [hEq, hzs] at h2
                exact hxz (Option.some_inj.mp h2.symm) |>.elim
              rw [hlen]
              exact ⟨h1, by rw [hgNe g hgf]; exact h2⟩
          · intro g hg
            have : g ∈ s.free_list := by
              have hfr : (A3.updPage f (fun p => p.reset.pin)).free_list = s.free_list := by
                show A2.free_list = s.free_list
                exact hA2free
              rw [hfr] at hg
              exact hg
            rw [hfreenil] at this
            cases this
          · show A2.free_list.Nodup
            rw [hA2free]
            exact h.free_nodup
          · show A2.lru.Bounded _
            rw [hA2lru, hlen]
            exact hb
          · intro x g hx
            have hx' : alookup (aremove s.page_table z) x = some g := by
              rw [← hA2pt]
              exact hx
            rw [alookup_aremove] at hx'
            by_cases hxz : x = z
            · rw [if_pos hxz] at hx'
              cases hx'
            · rw [if_neg hxz] at hx'
              exact hx'
          · intro g y hgy
            by_cases hgf : g = f
            · subst hgf
              rw [hgSelf] at hgy
              cases hgy
            · rw [hgNe g hgf] at hgy
              exact hgy
          · intro f' hf'
            cases hf'
            refine ⟨hflen, by rw [hgSelf]; rfl, by rw [hgSelf]; exact Nat.succ_ne_zero _, ?_⟩
            show f ∉ A2.free_list
            rw [hA2free, hfreenil]
            exact List.not_mem_nil _
        | none =>
          dsimp only
          have hlen : (A2.updPage f (fun p => p.reset.pin)).pages.length = s.pages.length := by
            rw [Pool.updPage_length, hA2pages]
          have hgSelf : (A2.updPage f (fun p => p.reset.pin)).getPage f
              = ((s.getPage f).reset.pin) := by
            rw [Pool.getPage_updPage_self _ _ (by rw [hA2pages]; exact hflen), hA2get]
          have hgNe : ∀ g, g ≠ f →
              (A2.updPage f (fun p => p.reset.pin)).getPage g = s.getPage g :=
            fun g hg => by rw [Pool.getPage_updPage_ne _ _ hg, hA2get]
          have hzs : (s.getPage f).page_id = none := by
            rw [← hA2get f]
            exact hz
          refine ⟨⟨?_, ?_, ?_, ?_⟩, ⟨hA2next, hlen⟩, ?_, ?_, ?_⟩
          · intro x g hx
            have hx' : alookup s.page_table x = some g := by
              rw [← hA2pt]
              exact hx
            obtain ⟨h1, h2⟩ := h.table x g hx'
            have hgf : g ≠ f := by
              intro hEq
              rw [hEq, hzs] at h2
              cases h2
            rw [hlen]
            exact ⟨h1, by rw [hgNe g hgf]; exact h2⟩
          · intro g hg
            have : g ∈ s.free_list := by
              have hfr : (A2.updPage f (fun p => p.reset.pin)).free_list = s.free_list := by
                show A2.free_list = s.free_list
                exact hA2free
              rw [hfr] at hg
              exact hg
            rw [hfreenil] at this
            cases this
          · show A2.free_list.Nodup
            rw [hA2free]
            exact h.free_nodup
          · show A2.lru.Bounded _
            rw [hA2lru, hlen]
            exact hb
          · intro x g hx
            rw [← hA2pt]
            exact hx
          · intro g y hgy
            by_cases hgf : g = f
            · subst hgf
              rw [hgSelf] at hgy
              cases hgy
            · rw [hgNe g hgf] at hgy
              exact hgy
          · intro f' hf'
            cases hf'
            refine ⟨hflen, by rw [hgSelf]; rfl, by rw [hgSelf]; exact Nat.succ_ne_zero _, ?_⟩
            show f ∉ A2.free_list
            rw [hA2free, hfreenil]
            exact List.not_mem_nil _

end Buffer

namespace Buffer

theorem Pool.find_page_some {s : Pool} {pid f : Nat} {pg : Page}
    (h : s.find_page pid = some (f, pg)) :
    alookup s.page_table pid = some f ∧ pg = s.getPage f := by
  unfold Pool.find_page at h
  cases hl : alookup s.page_table pid with
  | none =>
    rw [hl] at h
    cases h
  | some f' =>
    rw [hl] at h
    dsimp only [Option.map] at h
    cases h
    exact ⟨rfl, rfl⟩

theorem Pool.find_page_none {s : Pool} {pid : Nat} (h : s.find_page pid = none) :
    alookup s.page_table pid = none := by
  unfold Pool.find_page at h
  cases hl : alookup s.page_table pid with
  | none => rfl
  | some f' =>
    rw [hl] at h
    cases h

theorem Pool.find_page_of_lookup {s : Pool} {pid f : Nat}
    (h : alookup s.page_table pid = some f) :
    s.find_page pid = some (f, s.getPage f) := by
  unfold Pool.find_page
  rw [h]
  rfl

/-- Equation for `new_page` when a frame is available. -/
theorem Pool.new_page_eq_some (s : Pool) (inc : Nat → Nat) (s' : Pool) (f : Nat)
    (h : s.find_fresh_page = (s', some f)) :
    s.new_page inc =
      (({ s' with
          next_page_id := inc s'.next_page_id
          page_table := ainsert s'.page_table s'.next_page_id f }).updPage f
            (fun q => { q with page_id := some s'.next_page_id }), some f) := by
  unfold Pool.new_page
  rw [h]
  rfl

/-- Equation for `new_page` when the pool is exhausted. -/
theorem Pool.new_page_eq_none (s : Pool) (inc : Nat → Nat) (s' : Pool)
    (h : s.find_fresh_page = (s', none)) : s.new_page inc = (s', none) := by
  unfold Pool.new_page
  rw [h]

/-- Equation for `fetch_page` of a resident page. -/
theorem Pool.fetch_eq_hit (s : Pool) (pid f : Nat) (pg : Page)
    (h : s.find_page pid = some (f, pg)) :
    s.fetch_page pid = (({ s with lru := s.lru.remove f }).updPage f Page.pin, some f) := by
  unfold Pool.fetch_page
  rw [h]

/-- Equation for `fetch_page` of a non-resident page with a frame available. -/
theorem Pool.fetch_eq_miss (s : Pool) (pid : Nat) (s' : Pool) (f : Nat)
    (hmiss : s.find_page pid = none)
    (heq : s.find_fresh_page = (s', some f)) :
    s.fetch_page pid =
      ((({ s' with
            lru := s'.lru.remove f
            page_table := ainsert s'.page_table pid f }).updPage f
              (fun q => { q with page_id := some pid })).updPage f
            (fun q => { q with data := s'.disk.getD pid zeroData }), some f) := by
  unfold Pool.fetch_page
  rw [hmiss, heq]
  rfl

/-- Equation for `fetch_page` of a non-resident page with no frame. -/
theorem Pool.fetch_eq_full (s : Pool) (pid : Nat) (s' : Pool)
    (hmiss : s.find_page pid = none) (heq : s.find_fresh_page = (s', none)) :
    s.fetch_page pid = (s', none) := by
  unfold Pool.fetch_page
  rw [hmiss, heq]

/-- Equation for `unpin_page` on a resident pinned page. -/
theorem Pool.unpin_eq_found (s : Pool) (pid : Nat) (d : Bool) (f : Nat) (pg : Page)
    (hf : s.find_page pid = some (f, pg)) (hpin : pg.pin_count ≠ 0) :
    s.unpin_page pid d =
      ((if (Page.set_dirty { pg with pin_count := pg.pin_count - 1 } d).pin_count = 0 then
          { s.setPage f (Page.set_dirty { pg with pin_count := pg.pin_count - 1 } d) with
            lru := (s.setPage f
              (Page.set_dirty { pg with pin_count := pg.pin_count - 1 } d)).lru.add f }
        else
          s.setPage f (Page.set_dirty { pg with pin_count := pg.pin_count - 1 } d)).write_page
          f, true) := by
  unfold Pool.unpin_page Pool.unpinPageAux
  rw [hf]
  simp only [if_pos hpin,
    show pg.unpin = some { pg with pin_count := pg.pin_count - 1 } from if_neg hpin]
  rfl

/-- Equation for `unpin_page` on a resident page with pin count zero. -/
theorem Pool.unpin_eq_zero (s : Pool) (pid : Nat) (d : Bool) (f : Nat) (pg : Page)
    (hf : s.find_page pid = some (f, pg)) (hpin : pg.pin_count = 0) :
    s.unpin_page pid d = (s, false) := by
  unfold Pool.unpin_page Pool.unpinPageAux
  rw [hf]
  simp only [hpin, ne_eq, not_true_eq_false, if_false]
  rfl

/-- Equation for `unpin_page` on a non-resident page. -/
theorem Pool.unpin_eq_miss (s : Pool) (pid : Nat) (d : Bool)
    (hf : s.find_page pid = none) : s.unpin_page pid d = (s, false) := by
  unfold Pool.unpin_page Pool.unpinPageAux
  rw [hf]
  rfl

/-- Equation for `flush_page` of a resident page. -/
theorem Pool.flush_eq_found (s : Pool) (pid f : Nat) (pg : Page)
    (hf : s.find_page pid = some (f, pg)) :
    s.flush_page pid = (s.write_page f, true) := by
  unfold Pool.flush_page
  rw [hf]

/-- Equation for `flush_page` of a non-resident page. -/
theorem Pool.flush_eq_miss (s : Pool) (pid : Nat) (hf : s.find_page pid = none) :
    s.flush_page pid = (s, false) := by
  unfold Pool.flush_page
  rw [hf]

/-- Equation for `delete_page` of a resident unpinned page. -/
theorem Pool.delete_eq_found (s : Pool) (pid f : Nat) (pg : Page)
    (hf : s.find_page pid = some (f, pg)) (hpin : pg.pin_count = 0) :
    s.delete_page pid =
      ({ s.updPage f Page.reset with
          page_table := aremove (s.updPage f Page.reset).page_table pid
          free_list := (s.updPage f Page.reset).free_list ++ [f] }, true) := by
  unfold Pool.delete_page
  rw [hf]
  dsimp only
  rw [if_pos hpin]

/-- Equation for `delete_page` of a resident pinned page. -/
theorem Pool.delete_eq_pinned (s : Pool) (pid f : Nat) (pg : Page)
    (hf : s.find_page pid = some (f, pg)) (hpin : pg.pin_count ≠ 0) :
    s.delete_page pid = (s, false) := by
  unfold Pool.delete_page
  rw [hf]
  dsimp only
  rw [if_neg hpin]

/-- Equation for `delete_page` of a non-resident page. -/
theorem Pool.delete_eq_miss (s : Pool) (pid : Nat) (hf : s.find_page pid = none) :
    s.delete_page pid = (s, false) := by
  unfold Pool.delete_page
  rw [hf]

/-- Equation for `access_write` on a resident page. -/
theorem Pool.access_eq_found (s : Pool) (pid : Nat) (buf : PageData) (f : Nat) (pg : Page)
    (hf : s.find_page pid = some (f, pg)) :
    s.access_write pid buf = s.updPage f (fun q => { q with data := buf }) := by
  unfold Pool.access_write
  rw [hf]

/-- Equation for `access_write` on a non-resident page. -/
theorem Pool.access_eq_miss (s : Pool) (pid : Nat) (buf : PageData)
    (hf : s.find_page pid = none) : s.access_write pid buf = s := by
  unfold Pool.access_write
  rw [hf]

end Buffer

/-- The state after the C1 end-to-end scenario plus the minimal traffic
that evicts page 1's frame: a pool of one frame backed by a fresh empty
file; `new_page` (page 0), `unpin_page(0,false)`, `new_page` (page 1,
reusing frame 0), a write of `B = [7]` through the page-1 handle,
`unpin_page(1,true)` (flushes — appending at end-of-file, i.e. offset 0),
`fetch_page(1)` (hit), `unpin_page(1,false)` (assigns the dirty flag to
`false`), `fetch_page(0)` and `unpin_page(0,false)` (evicts and reloads
the frame). -/
def c1State : Buffer.Pool :=
  Buffer.run Nat.succ (Buffer.Pool.init 1 0)
    [.new_page, .unpin_page 0 false, .new_page, .access_write 1 [7],
     .unpin_page 1 true, .fetch_page 1, .unpin_page 1 false,
     .fetch_page 0, .unpin_page 0 false]

/-- **C1** (refutation at a concrete input, under the faithful
append-at-end-of-file disk of `DiskManager::write` — `pwrite` on a file
opened with `append(true)`, the Linux behaviour also recorded under C7):
with a pool of one frame over a fresh empty file, the second `new_page`
returns a handle carrying page id `1`; `B = [7]` is written through it
and `unpin_page(1, true)` returns `true` — but its flush lands at
offset 0 (the file was empty), so the file holds `B` at page slot 0.
A `fetch_page(1)` hit followed by `unpin_page(1, false)` clears the
dirty flag, so the eviction caused by `fetch_page(0)` does not rewrite
the data; the next `fetch_page(1)` succeeds, reads past end-of-file and
hands back zeros instead of `B`.  No operation in between writes to
page 1.  The claimed round trip fails on the program. -/
theorem c1_append_flush_loses_round_trip :
    ((Buffer.run Nat.succ (Buffer.Pool.init 1 0)
        [.new_page, .unpin_page 0 false]).new_page Nat.succ).2 = some 0 ∧
    ((Buffer.run Nat.succ (Buffer.Pool.init 1 0)
        [.new_page, .unpin_page 0 false, .new_page]).getPage 0).page_id = some 1 ∧
    ((Buffer.run Nat.succ (Buffer.Pool.init 1 0)
        [.new_page, .unpin_page 0 false, .new_page, .access_write 1 [7]]).getPage
        0).data = [7] ∧
    ((Buffer.run Nat.succ (Buffer.Pool.init 1 0)
        [.new_page, .unpin_page 0 false, .new_page,
         .access_write 1 [7]]).unpin_page 1 true).2 = true ∧
    (Buffer.run Nat.succ (Buffer.Pool.init 1 0)
        [.new_page, .unpin_page 0 false, .new_page, .access_write 1 [7],
         .unpin_page 1 true]).disk = [[7]] ∧
    ((c1State.fetch_page 1).2 = some 0 ∧
      ((c1State.fetch_page 1).1.getPage 0).data.head? = some 0 ∧
      ((c1State.fetch_page 1).1.getPage 0).data ≠ [7]) := by decide


namespace AA.Node

/-- Number of nodes, used as a termination measure for induction over the
nested inductive. -/
def nsize : Node → Nat
  | .mk _ _ l r =>
    (match l with | none => 0 | some n => nsize n) +
      (match r with | none => 0 | some n => nsize n) + 1

/-- Node count of an optional subtree. -/
def nsizeO : Option Node → Nat
  | none => 0
  | some n => nsize n

theorem nsize_mk (v lv : Nat) (l r : Option Node) :
    nsize (.mk v lv l r) = nsizeO l + nsizeO r + 1 := by
  unfold nsize
  cases l <;> cases r <;> rfl

theorem nsize_left_lt (v lv : Nat) (r : Option Node) (n : Node) :
    nsize n < nsize (.mk v lv (some n) r) := by
  rw [nsize_mk]
  show nsize n < nsize n + nsizeO r + 1
  omega

theorem nsize_right_lt (v lv : Nat) (l : Option Node) (n : Node) :
    nsize n < nsize (.mk v lv l (some n)) := by
  rw [nsize_mk]
  show nsize n < nsizeO l + nsize n + 1
  omega

/-- Structural induction principle for `Node` (children through `Option`). -/
theorem ind_on (P : Node → Prop)
    (h : ∀ v lv l r, (∀ n, l = some n → P n) → (∀ n, r = some n → P n) →
      P (.mk v lv l r)) :
    ∀ t, P t := by
  have key : ∀ k t, nsize t ≤ k → P t := by
    intro k
    induction k with
    | zero =>
      intro t ht
      cases t with
      | mk v lv l r =>
        rw [nsize_mk] at ht
        omega
    | succ k ih =>
      intro t ht
      cases t with
      | mk v lv l r =>
        refine h v lv l r (fun n hn => ih n ?_) (fun n hn => ih n ?_)
        · subst hn
          have h2 := nsize_left_lt v lv r n
          omega
        · subst hn
          have h2 := nsize_right_lt v lv l n
          omega
  intro t
  exact key (nsize t) t (Nat.le_refl _)

/-- In-order values of an optional subtree. -/
def toListO : Option Node → List Nat
  | none => []
  | some n => toList n

@[simp] theorem toListO_none : toListO none = [] := rfl

@[simp] theorem toListO_some (n : Node) : toListO (some n) = toList n := rfl

@[simp] theorem toList_mk (v lv : Nat) (l r : Option Node) :
    toList (.mk v lv l r) = toListO l ++ v :: toListO r := by
  unfold toList
  cases l <;> cases r <;> rfl

theorem toList_new (v lv : Nat) : toList (new v lv) = [v] := by
  show toList (.mk v lv none none) = [v]
  rw [toList_mk]
  rfl

/-- `skew` permutes structure, not contents. -/
theorem toList_skew (t : Node) : toList (skew t) = toList t := by
  cases t with
  | mk v lv l r =>
    cases l with
    | none => rfl
    | some n =>
      cases n with
      | mk a b c d =>
        show toList (if b = lv then .mk a b c (some (.mk v lv d r))
          else .mk v lv (some (.mk a b c d)) r) = _
        by_cases h : b = lv
        · rw [if_pos h]
          simp [List.append_assoc]
        · rw [if_neg h]

/-- `split` permutes structure, not contents. -/
theorem toList_split (t : Node) : toList (split t) = toList t := by
  cases t with
  | mk v lv l r =>
    cases r with
    | none => rfl
    | some n =>
      cases n with
      | mk a b c d =>
        cases d with
        | none => rfl
        | some rr =>
          show toList (if lv = b ∧ b = rr.level then
              .mk a (b + 1) (some (.mk v lv l c)) (some rr)
            else .mk v lv l (some (.mk a b c (some rr)))) = _
          by_cases h : lv = b ∧ b = rr.level
          · rw [if_pos h]
            simp [List.append_assoc]
          · rw [if_neg h]

/-- The insertion of `inner` into an optional subtree. -/
def innerO (o : Option Node) (value lv : Nat) : Node :=
  match o with
  | none => new value lv
  | some n => inner n value

/-- Unfolding equation for `inner` at a node. -/
theorem inner_mk (value v lv : Nat) (l r : Option Node) :
    inner (.mk v lv l r) value =
      split (skew (if v = value then Node.mk v lv l r
        else if value < v then Node.mk v lv (some (innerO l value lv)) r
        else Node.mk v lv l (some (innerO r value lv)))) := by
  rw [inner.eq_def]
  cases l <;> cases r <;> rfl

/-- The rebalancing in `inner` leaves the in-order contents of the rebuilt
node untouched. -/
theorem toList_inner (value v lv : Nat) (l r : Option Node) :
    toList (inner (.mk v lv l r) value) =
      toList (if v = value then Node.mk v lv l r
        else if value < v then Node.mk v lv (some (innerO l value lv)) r
        else Node.mk v lv l (some (innerO r value lv))) := by
  rw [inner_mk, toList_split, toList_skew]

end AA.Node

namespace AA.Node

@[simp] theorem innerO_none (value lv : Nat) : innerO none value lv = new value lv := rfl

@[simp] theorem innerO_some (n : Node) (value lv : Nat) :
    innerO (some n) value lv = inner n value := rfl

/-- `put` inserts its value and keeps the in-order list strictly sorted:
starting from a strictly sorted tree, the in-order list of
`inner t value` is strictly sorted and its members are exactly `value`
together with the members of `t`. -/
theorem inner_sorted_mem (value : Nat) :
    ∀ t : Node, List.Sorted (· < ·) t.toList →
      List.Sorted (· < ·) (inner t value).toList ∧
      ∀ y, y ∈ (inner t value).toList ↔ y = value ∨ y ∈ t.toList := by
  refine ind_on _ ?_
  intro v lv l r ihl ihr hs
  rw [toList_inner]
  rw [toList_mk] at hs
  by_cases hv : v = value
  · rw [if_pos hv, toList_mk]
    refine ⟨hs, ?_⟩
    intro y
    constructor
    · intro hy
      exact Or.inr hy
    · intro hy
      cases hy with
      | inl hy =>
        subst hy
        rw [← hv]
        exact List.mem_append_right _ (List.mem_cons_self _ _)
      | inr hy => exact hy
  · rw [if_neg hv]
    by_cases hlt : value < v
    · rw [if_pos hlt, toList_mk]
      obtain ⟨hsl, hsr, hcross⟩ := List.pairwise_append.mp hs
      cases l with
      | none =>
        constructor
        · show List.Sorted (· < ·) (toList (new value lv) ++ v :: toListO r)
          rw [toList_new]
          refine List.pairwise_append.mpr ⟨List.pairwise_singleton _ _, hsr, ?_⟩
          intro a ha b hb
          rw [List.mem_singleton] at ha
          subst ha
          rcases List.mem_cons.mp hb with hb | hb
          · subst hb
            exact hlt
          · exact Nat.lt_trans hlt ((List.pairwise_cons.mp hsr).1 b hb)
        · intro y
          simp only [innerO_none, toList_new, toList_mk, toListO_none, toListO_some,
            List.nil_append, List.mem_append, List.mem_singleton, List.mem_cons]
          tauto
      | some n =>
        have hsn : List.Sorted (· < ·) (toList n) := hsl
        obtain ⟨ihs, ihm⟩ := ihl n rfl hsn
        constructor
        · show List.Sorted (· < ·) (toList (inner n value) ++ v :: toListO r)
          refine List.pairwise_append.mpr ⟨ihs, hsr, ?_⟩
          intro a ha b hb
          rcases (ihm a).mp ha with ha' | ha'
          · subst ha'
            rcases List.mem_cons.mp hb with hb | hb
            · subst hb
              exact hlt
            · exact Nat.lt_trans hlt ((List.pairwise_cons.mp hsr).1 b hb)
          · exact hcross a ha' b hb
        · intro y
          simp only [innerO_some, toList_mk, toListO_some, List.mem_append,
            List.mem_cons, ihm]
          tauto
    · have hgt : v < value := by omega
      rw [if_neg hlt, toList_mk]
      obtain ⟨hsl, hsr, hcross⟩ := List.pairwise_append.mp hs
      cases r with
      | none =>
        constructor
        · show List.Sorted (· < ·) (toListO l ++ v :: toList (new value lv))
          rw [toList_new]
          refine List.pairwise_append.mpr ⟨hsl, ?_, ?_⟩
          · refine List.pairwise_cons.mpr ⟨?_, List.pairwise_singleton _ _⟩
            intro b hb
            rw [List.mem_singleton] at hb
            subst hb
            exact hgt
          · intro a ha b hb
            rcases List.mem_cons.mp hb with hb | hb
            · rw [hb]
              exact hcross a ha v (List.mem_cons_self _ _)
            · rw [List.mem_singleton] at hb
              subst hb
              exact Nat.lt_trans (hcross a ha v (List.mem_cons_self _ _)) hgt
        · intro y
          simp only [innerO_none, toList_new, toList_mk, toListO_none, toListO_some,
            List.mem_append, List.mem_singleton, List.mem_cons]
          tauto
      | some n =>
        have hsn : List.Sorted (· < ·) (toList n) := (List.pairwise_cons.mp hsr).2
        have hvlt : ∀ b ∈ toList n, v < b := (List.pairwise_cons.mp hsr).1
        obtain ⟨ihs, ihm⟩ := ihr n rfl hsn
        constructor
        · show List.Sorted (· < ·) (toListO l ++ v :: toList (inner n value))
          refine List.pairwise_append.mpr ⟨hsl, ?_, ?_⟩
          · refine List.pairwise_cons.mpr ⟨?_, ihs⟩
            intro b hb
            rcases (ihm b).mp hb with hb' | hb'
            · subst hb'
              exact hgt
            · exact hvlt b hb'
          · intro a ha b hb
            rcases List.mem_cons.mp hb with hb | hb
            · rw [hb]
              exact hcross a ha v (List.mem_cons_self _ _)
            · rcases (ihm b).mp hb with hb' | hb'
              · subst hb'
                exact Nat.lt_trans (hcross a ha v (List.mem_cons_self _ _)) hgt
              · exact hcross a ha b (List.mem_cons_of_mem _ hb')
        · intro y
          simp only [innerO_some, toList_mk, toListO_some, List.mem_append,
            List.mem_cons, ihm]
          tauto

end AA.Node

namespace AA.Node

/-- Folding `put` over a list, starting from any tree with strictly
sorted contents, keeps the contents strictly sorted and accumulates the
members. -/
theorem foldl_put_sorted_mem (xs : List Nat) :
    ∀ t : Node, List.Sorted (· < ·) t.toList →
      List.Sorted (· < ·) (xs.foldl (fun t v => t.put v) t).toList ∧
      ∀ y, y ∈ (xs.foldl (fun t v => t.put v) t).toList ↔ y ∈ t.toList ∨ y ∈ xs := by
  induction xs with
  | nil =>
    intro t hs
    refine ⟨hs, ?_⟩
    intro y
    simp
  | cons x xs ih =>
    intro t hs
    obtain ⟨hps, hpm⟩ := inner_sorted_mem x t hs
    obtain ⟨hfs, hfm⟩ := ih (t.put x) hps
    refine ⟨hfs, ?_⟩
    intro y
    rw [List.foldl_cons]
    rw [hfm y]
    show y ∈ (inner t x).toList ∨ y ∈ xs ↔ _
    rw [hpm y]
    simp only [List.mem_cons]
    tauto

theorem toList_new_leaf (x : Nat) : toList (new_leaf x) = [x] := toList_new x 1

/-- The tree built from `x :: xs` has strictly sorted contents, which are
exactly the members of `x :: xs`. -/
theorem build_sorted_mem (x : Nat) (xs : List Nat) :
    List.Sorted (· < ·) (build x xs).toList ∧
    ∀ y, y ∈ (build x xs).toList ↔ y ∈ x :: xs := by
  have h0 : List.Sorted (· < ·) (new_leaf x).toList := by
    rw [toList_new_leaf]
    exact List.pairwise_singleton _ _
  obtain ⟨hs, hm⟩ := foldl_put_sorted_mem xs (new_leaf x) h0
  refine ⟨hs, ?_⟩
  intro y
  rw [show build x xs = xs.foldl (fun t v => t.put v) (new_leaf x) from rfl, hm y,
    toList_new_leaf]
  simp

/-- Two strictly sorted lists with the same members are equal. -/
theorem sorted_lt_eq_of_mem_iff :
    ∀ l₁ l₂ : List Nat, List.Sorted (· < ·) l₁ → List.Sorted (· < ·) l₂ →
      (∀ y, y ∈ l₁ ↔ y ∈ l₂) → l₁ = l₂ := by
  intro l₁
  induction l₁ with
  | nil =>
    intro l₂ _ _ hm
    cases l₂ with
    | nil => rfl
    | cons b t₂ => exact absurd ((hm b).mpr (List.mem_cons_self _ _)) (List.not_mem_nil b)
  | cons a t₁ ih =>
    intro l₂ h₁ h₂ hm
    cases l₂ with
    | nil => exact absurd ((hm a).mp (List.mem_cons_self _ _)) (List.not_mem_nil a)
    | cons b t₂ =>
      obtain ⟨ha₁, hs₁⟩ := List.pairwise_cons.mp h₁
      obtain ⟨hb₂, hs₂⟩ := List.pairwise_cons.mp h₂
      have hab : a = b := by
        rcases List.mem_cons.mp ((hm a).mp (List.mem_cons_self _ _)) with h | h
        · exact h
        · rcases List.mem_cons.mp ((hm b).mpr (List.mem_cons_self _ _)) with h' | h'
          · exact h'.symm
          · have hba := hb₂ a h
            have hab := ha₁ b h'
            omega
      subst hab
      have ht : t₁ = t₂ := by
        refine ih t₂ hs₁ hs₂ ?_
        intro y
        constructor
        · intro hy
          rcases List.mem_cons.mp ((hm y).mp (List.mem_cons_of_mem _ hy)) with h | h
          · have := ha₁ y hy
            omega
          · exact h
        · intro hy
          rcases List.mem_cons.mp ((hm y).mpr (List.mem_cons_of_mem _ hy)) with h | h
          · have := hb₂ y hy
            omega
          · exact h
      rw [ht]

end AA.Node

/-- The specification's target result, written from the spec's words: the
input sequence, deduplicated and then sorted. -/
def sortedDedupSpec (S : List Nat) : List Nat :=
  List.insertionSort (fun a b => a ≤ b) S.dedup

theorem sortedDedupSpec_sorted (S : List Nat) :
    List.Sorted (· < ·) (sortedDedupSpec S) := by
  have hle : List.Sorted (fun a b => a ≤ b) (sortedDedupSpec S) :=
    List.sorted_insertionSort _ _
  have hnd : (sortedDedupSpec S).Nodup := by
    show (List.insertionSort (fun a b => a ≤ b) S.dedup).Nodup
    rw [List.Perm.nodup_iff (List.perm_insertionSort _ _)]
    exact List.nodup_dedup S
  have := List.Pairwise.and hle hnd
  refine this.imp ?_
  intro a b hab
  exact Nat.lt_of_le_of_ne hab.1 hab.2

theorem sortedDedupSpec_mem (S : List Nat) (y : Nat) :
    y ∈ sortedDedupSpec S ↔ y ∈ S := by
  show y ∈ List.insertionSort (fun a b => a ≤ b) S.dedup ↔ y ∈ S
  rw [List.Perm.mem_iff (List.perm_insertionSort _ _), List.mem_dedup]

/-- C8: the in-order traversal of the AA tree built by `new_leaf` on the
first element of a nonempty sequence followed by `put` of each remaining
element is exactly the sorted duplicate-free sequence `sort(dedup(S))`;
in particular, `put` of a value already present leaves the in-order
contents unchanged. -/
theorem c8_inorder_is_sorted_dedup (x : Nat) (xs : List Nat) :
    (AA.Node.build x xs).toList = sortedDedupSpec (x :: xs) ∧
    ∀ v ∈ x :: xs, ((AA.Node.build x xs).put v).toList = (AA.Node.build x xs).toList := by
  obtain ⟨hs, hm⟩ := AA.Node.build_sorted_mem x xs
  have heq : (AA.Node.build x xs).toList = sortedDedupSpec (x :: xs) :=
    AA.Node.sorted_lt_eq_of_mem_iff _ _ hs (sortedDedupSpec_sorted _)
      (fun y => by rw [hm y, sortedDedupSpec_mem])
  refine ⟨heq, ?_⟩
  intro v hv
  obtain ⟨hps, hpm⟩ := AA.Node.inner_sorted_mem v (AA.Node.build x xs) hs
  show (AA.Node.inner (AA.Node.build x xs) v).toList = (AA.Node.build x xs).toList
  refine AA.Node.sorted_lt_eq_of_mem_iff _ _ hps hs ?_
  intro y
  rw [hpm y]
  constructor
  · intro h
    rcases h with h | h
    · rw [h]
      exact (hm v).mpr hv
    · exact h
  · exact fun h => Or.inr h

namespace AA.Node

/-- Level of an optional subtree (0 for a missing child, as in the AA-tree
literature). -/
def levelO : Option Node → Nat
  | none => 0
  | some n => n.level

@[simp] theorem levelO_none : levelO none = 0 := rfl

@[simp] theorem levelO_some (n : Node) : levelO (some n) = n.level := rfl

@[simp] theorem level_mk (v lv : Nat) (l r : Option Node) :
    level (.mk v lv l r) = lv := rfl

@[simp] theorem left_mk (v lv : Nat) (l r : Option Node) :
    left (.mk v lv l r) = l := rfl

@[simp] theorem right_mk (v lv : Nat) (l r : Option Node) :
    right (.mk v lv l r) = r := rfl

/-- The AA-tree shape invariant: the left child lives one level down, the
right child one level down or (a horizontal link) at the same level, and a
horizontal right child has no horizontal right child of its own. -/
def Inv : Node → Prop
  | .mk _ lv l r =>
    (match l with | none => True | some n => Inv n) ∧
    (match r with | none => True | some n => Inv n) ∧
    levelO l + 1 = lv ∧
    (levelO r + 1 = lv ∨ levelO r = lv) ∧
    (match r with
     | none => True
     | some rn => rn.level = lv → levelO rn.right + 1 = lv)

/-- Invariant of an optional subtree. -/
def InvO : Option Node → Prop
  | none => True
  | some n => Inv n

@[simp] theorem InvO_none : InvO none := trivial

@[simp] theorem InvO_some (n : Node) : InvO (some n) ↔ Inv n := Iff.rfl

/-- The no-double-horizontal condition on a right child. -/
def rOk (lv : Nat) : Option Node → Prop
  | none => True
  | some rn => rn.level = lv → levelO rn.right + 1 = lv

@[simp] theorem rOk_none (lv : Nat) : rOk lv none := trivial

@[simp] theorem rOk_some (lv : Nat) (n : Node) :
    rOk lv (some n) ↔ (n.level = lv → levelO n.right + 1 = lv) := Iff.rfl

theorem Inv_mk (v lv : Nat) (l r : Option Node) :
    Inv (.mk v lv l r) ↔
      InvO l ∧ InvO r ∧ levelO l + 1 = lv ∧
        (levelO r + 1 = lv ∨ levelO r = lv) ∧ rOk lv r := by
  unfold Inv
  cases l <;> cases r <;> exact Iff.rfl

theorem inv_level_pos (t : Node) (h : Inv t) : 1 ≤ t.level := by
  cases t with
  | mk v lv l r =>
    rw [Inv_mk] at h
    obtain ⟨_, _, hLl, _, _⟩ := h
    simp only [level_mk]
    omega

theorem levelO_zero_none (o : Option Node) (hI : InvO o) (h : levelO o = 0) :
    o = none := by
  cases o with
  | none => rfl
  | some n =>
    have h1 := inv_level_pos n hI
    rw [levelO_some] at h
    omega

/-- `skew` is the identity when the left link is not horizontal. -/
theorem skew_keep (v lv : Nat) (l r : Option Node) (h : levelO l + 1 = lv) :
    skew (.mk v lv l r) = .mk v lv l r := by
  cases l with
  | none => rfl
  | some n =>
    cases n with
    | mk a b c d =>
      show (if b = lv then Node.mk a b c (some (.mk v lv d r))
        else Node.mk v lv (some (.mk a b c d)) r) = _
      have h' : b + 1 = lv := h
      rw [if_neg (by omega)]

/-- `skew` rotates a horizontal left link. -/
theorem skew_rotate (v lv a b : Nat) (c d r : Option Node) (h : b = lv) :
    skew (.mk v lv (some (.mk a b c d)) r) = .mk a b c (some (.mk v lv d r)) := by
  show (if b = lv then Node.mk a b c (some (.mk v lv d r))
    else Node.mk v lv (some (.mk a b c d)) r) = _
  rw [if_pos h]

/-- `split` is the identity when the right chain carries no double
horizontal link. -/
theorem split_keep (v lv : Nat) (l r : Option Node) (h : rOk lv r) :
    split (.mk v lv l r) = .mk v lv l r := by
  cases r with
  | none => rfl
  | some rn =>
    cases rn with
    | mk a b c d =>
      cases d with
      | none => rfl
      | some rr =>
        have hc : ¬(lv = b ∧ b = rr.level) := by
          rintro ⟨h1, h2⟩
          have h3 : b = lv → levelO (some rr) + 1 = lv := h
          have h5 : rr.level + 1 = lv := h3 h1.symm
          omega
        show (if lv = b ∧ b = rr.level then
            Node.mk a (b + 1) (some (.mk v lv l c)) (some rr)
          else Node.mk v lv l (some (.mk a b c (some rr)))) = _
        rw [if_neg hc]

/-- `split` rotates and promotes a double horizontal right link. -/
theorem split_rotate (v lv a b : Nat) (l c : Option Node) (rr : Node)
    (h : lv = b ∧ b = rr.level) :
    split (.mk v lv l (some (.mk a b c (some rr)))) =
      .mk a (b + 1) (some (.mk v lv l c)) (some rr) := by
  show (if lv = b ∧ b = rr.level then
      Node.mk a (b + 1) (some (.mk v lv l c)) (some rr)
    else Node.mk v lv l (some (.mk a b c (some rr)))) = _
  rw [if_pos h]

end AA.Node

namespace AA.Node

@[simp] theorem new_def (v lv : Nat) : new v lv = .mk v lv none none := rfl

/-- A right child strictly below the node's level never violates the
no-double-horizontal condition. -/
theorem rOk_of_lt (lv : Nat) (o : Option Node) (h : levelO o + 1 = lv) : rOk lv o := by
  cases o with
  | none => trivial
  | some x =>
    rw [rOk_some]
    intro hx
    rw [levelO_some] at h
    omega

/-- Insertion preserves the AA invariant; the level grows by at most one,
and when it grows the new root has no horizontal right link and the old
node was itself horizontal. -/
theorem inner_inv (value : Nat) :
    ∀ t : Node, Inv t →
      Inv (inner t value) ∧
      ((inner t value).level = t.level ∨
        ((inner t value).level = t.level + 1 ∧
          levelO (inner t value).right + 1 = (inner t value).level ∧
          levelO t.right = t.level)) := by
  refine ind_on _ ?_
  intro v lv l r ihl ihr hinv
  rw [Inv_mk] at hinv
  obtain ⟨hIl, hIr, hLl, hLr, hRok⟩ := hinv
  have hpos : 1 ≤ lv := by omega
  rw [inner_mk]
  simp only [level_mk, right_mk]
  by_cases hv : v = value
  · rw [if_pos hv, skew_keep v lv l r hLl, split_keep v lv l r hRok]
    refine ⟨?_, Or.inl rfl⟩
    rw [Inv_mk]
    exact ⟨hIl, hIr, hLl, hLr, hRok⟩
  · rw [if_neg hv]
    by_cases hlt : value < v
    · rw [if_pos hlt]
      cases l with
      | none =>
        have hlv1 : lv = 1 := by simp only [levelO_none] at hLl; omega
        subst hlv1
        simp only [innerO_none, new_def]
        rw [skew_rotate v 1 value 1 none none r rfl]
        cases r with
        | none =>
          rw [split_keep value 1 none (some (.mk v 1 none none)) (fun _ => rfl)]
          refine ⟨?_, Or.inl rfl⟩
          simp [Inv_mk]
        | some rn =>
          have hIrn : Inv rn := hIr
          have hrl : rn.level = 1 := by
            have h1 := inv_level_pos rn hIrn
            have hLr' : rn.level + 1 = 1 ∨ rn.level = 1 := hLr
            omega
          have hRok' : rn.level = 1 → levelO rn.right + 1 = 1 := hRok
          have hrr0 : levelO rn.right = 0 := by
            have := hRok' hrl
            omega
          cases rn with
          | mk a b c d =>
            simp only [level_mk] at hrl
            subst hrl
            simp only [right_mk] at hrr0
            rw [Inv_mk] at hIrn
            obtain ⟨hIc, hId, hLc, _, _⟩ := hIrn
            have hd : d = none := levelO_zero_none d hId hrr0
            have hc : c = none := levelO_zero_none c hIc (by omega)
            subst hd
            subst hc
            rw [split_rotate value 1 v 1 none none (.mk a 1 none none) ⟨rfl, rfl⟩]
            refine ⟨?_, Or.inr ⟨rfl, rfl, rfl⟩⟩
            simp [Inv_mk]
      | some n =>
        have hInvN : Inv n := hIl
        obtain ⟨hInvU, hgrow⟩ := ihl n rfl hInvN
        simp only [innerO_some]
        have hnl : n.level + 1 = lv := hLl
        rcases hgrow with hsame | ⟨hup, hur, hnr⟩
        · rw [skew_keep v lv (some (inner n value)) r
            (by simp only [levelO_some] <;> omega),
            split_keep v lv (some (inner n value)) r hRok]
          refine ⟨?_, Or.inl rfl⟩
          rw [Inv_mk]
          exact ⟨hInvU, hIr, by simp only [levelO_some] <;> omega, hLr, hRok⟩
        · cases hU : inner n value with
          | mk uv ulv ul ur =>
            rw [hU] at hInvU hup hur
            simp only [level_mk, right_mk] at hup hur
            have hulv : ulv = lv := by omega
            rw [Inv_mk] at hInvU
            obtain ⟨hIul, hIur, hLul, hLur, hRoku⟩ := hInvU
            rw [skew_rotate v lv uv ulv ul ur r (by omega)]
            cases r with
            | none =>
              have hlv1 : lv = 1 := by simp only [levelO_none] at hLr; omega
              rw [split_keep uv ulv ul (some (.mk v lv ur none))
                (by rw [rOk_some]; simp only [level_mk, right_mk, levelO_none] <;> omega)]
              refine ⟨?_, Or.inl (by simp only [level_mk] <;> omega)⟩
              rw [Inv_mk]
              refine ⟨hIul, ?_, hLul, Or.inr (by simp only [levelO_some, level_mk] <;> omega), ?_⟩
              · rw [InvO_some, Inv_mk]
                exact ⟨hIur, trivial, by omega,
                  Or.inl (by simp only [levelO_none] <;> omega), trivial⟩
              · rw [rOk_some]
                simp only [level_mk, right_mk, levelO_none]
                omega
            | some rn =>
              have hIrn : Inv rn := hIr
              have hLr' : rn.level + 1 = lv ∨ rn.level = lv := hLr
              by_cases hhor : rn.level = lv
              · have hRok2 : rn.level = lv → levelO rn.right + 1 = lv := hRok
                have hrr := hRok2 hhor
                have hcond : ulv = lv ∧ lv = rn.level := ⟨hulv, hhor.symm⟩
                rw [split_rotate uv ulv v lv ul ur rn hcond]
                refine ⟨?_, Or.inr ⟨by simp only [level_mk] <;> omega,
                  by simp only [right_mk, levelO_some, level_mk] <;> omega,
                  by simp only [levelO_some] <;> omega⟩⟩
                rw [Inv_mk]
                refine ⟨?_, hIrn, by simp only [levelO_some, level_mk] <;> omega,
                  Or.inl (by simp only [levelO_some] <;> omega), ?_⟩
                · rw [InvO_some, Inv_mk]
                  exact ⟨hIul, hIur, hLul, Or.inl hur, rOk_of_lt ulv ur hur⟩
                · rw [rOk_some]
                  omega
              · have hrn1 : rn.level + 1 = lv := by
                  rcases hLr' with h | h
                  · exact h
                  · exact absurd h hhor
                rw [split_keep uv ulv ul (some (.mk v lv ur (some rn)))
                  (by rw [rOk_some]; simp only [level_mk, right_mk, levelO_some] <;> omega)]
                refine ⟨?_, Or.inl (by simp only [level_mk] <;> omega)⟩
                rw [Inv_mk]
                refine ⟨hIul, ?_, hLul,
                  Or.inr (by simp only [levelO_some, level_mk] <;> omega), ?_⟩
                · rw [InvO_some, Inv_mk]
                  refine ⟨hIur, hIrn, by omega,
                    Or.inl (by simp only [levelO_some] <;> omega), ?_⟩
                  rw [rOk_some]
                  omega
                · rw [rOk_some]
                  simp only [level_mk, right_mk, levelO_some]
                  omega
    · have hgt : v < value := by omega
      rw [if_neg hlt]
      cases r with
      | none =>
        have hlv1 : lv = 1 := by simp only [levelO_none] at hLr; omega
        have hl0 : l = none := levelO_zero_none l hIl (by omega)
        subst hlv1
        subst hl0
        simp only [innerO_none, new_def]
        rw [skew_keep v 1 none (some (.mk value 1 none none)) rfl]
        rw [split_keep v 1 none (some (.mk value 1 none none)) (fun _ => rfl)]
        refine ⟨?_, Or.inl rfl⟩
        simp [Inv_mk]
      | some n =>
        have hInvN : Inv n := hIr
        obtain ⟨hInvU, hgrow⟩ := ihr n rfl hInvN
        simp only [innerO_some]
        rw [skew_keep v lv l (some (inner n value)) hLl]
        have hLr' : n.level + 1 = lv ∨ n.level = lv := hLr
        by_cases hhor : n.level = lv
        · have hRok2 : n.level = lv → levelO n.right + 1 = lv := hRok
          have hnr := hRok2 hhor
          rcases hgrow with hsame | ⟨hup, hur2, hnr2⟩
          · cases hU : inner n value with
            | mk uv ulv ul ur =>
              rw [hU] at hInvU hsame
              simp only [level_mk] at hsame
              have hInvU' := hInvU
              rw [Inv_mk] at hInvU
              obtain ⟨hIul, hIur, hLul, hLur, hRoku⟩ := hInvU
              have hulv : ulv = lv := by omega
              by_cases huh : levelO ur = ulv
              · cases ur with
                | none =>
                  simp only [levelO_none] at huh
                  omega
                | some rr =>
                  simp only [levelO_some] at huh
                  have hIrr : Inv rr := hIur
                  rw [split_rotate v lv uv ulv l ul rr ⟨by omega, by omega⟩]
                  refine ⟨?_, Or.inr ⟨by simp only [level_mk] <;> omega,
                    by simp only [right_mk, levelO_some, level_mk] <;> omega,
                    by simp only [levelO_some] <;> omega⟩⟩
                  rw [Inv_mk]
                  refine ⟨?_, hIrr, by simp only [levelO_some, level_mk] <;> omega,
                    Or.inl (by simp only [levelO_some] <;> omega), ?_⟩
                  · rw [InvO_some, Inv_mk]
                    exact ⟨hIl, hIul, hLl, Or.inl (by omega),
                      rOk_of_lt lv ul (by omega)⟩
                  · rw [rOk_some]
                    omega
              · have hu_not : levelO ur + 1 = ulv := by
                  rcases hLur with h | h
                  · exact h
                  · exact absurd h huh
                rw [split_keep v lv l (some (.mk uv ulv ul ur))
                  (by rw [rOk_some]; simp only [level_mk, right_mk] <;> omega)]
                refine ⟨?_, Or.inl rfl⟩
                rw [Inv_mk]
                refine ⟨hIl, hInvU', hLl,
                  Or.inr (by simp only [levelO_some, level_mk] <;> omega), ?_⟩
                rw [rOk_some]
                simp only [level_mk, right_mk]
                omega
          · exfalso
            omega
        · have hrn1 : n.level + 1 = lv := by
            rcases hLr' with h | h
            · exact h
            · exact absurd h hhor
          rcases hgrow with hsame | ⟨hup, hur2, _⟩
          · rw [split_keep v lv l (some (inner n value))
              (rOk_of_lt lv (some (inner n value)) (by simp only [levelO_some] <;> omega))]
            refine ⟨?_, Or.inl rfl⟩
            rw [Inv_mk]
            exact ⟨hIl, hInvU, hLl, Or.inl (by simp only [levelO_some] <;> omega),
              rOk_of_lt lv (some (inner n value)) (by simp only [levelO_some] <;> omega)⟩
          · cases hU : inner n value with
            | mk uv ulv ul ur =>
              rw [hU] at hInvU hup hur2
              simp only [level_mk, right_mk] at hup hur2
              have hInvU' := hInvU
              rw [split_keep v lv l (some (.mk uv ulv ul ur))
                (by rw [rOk_some]; simp only [level_mk, right_mk] <;> omega)]
              refine ⟨?_, Or.inl rfl⟩
              rw [Inv_mk]
              refine ⟨hIl, hInvU', hLl,
                Or.inr (by simp only [levelO_some, level_mk] <;> omega), ?_⟩
              rw [rOk_some]
              simp only [level_mk, right_mk]
              omega

end AA.Node

namespace AA.Node

/-- Depth of an optional subtree. -/
def depthO : Option Node → Nat
  | none => 0
  | some n => depth n

@[simp] theorem depthO_none : depthO none = 0 := rfl

@[simp] theorem depthO_some (n : Node) : depthO (some n) = depth n := rfl

theorem depth_mk (v lv : Nat) (l r : Option Node) :
    depth (.mk v lv l r) = max (depthO l) (depthO r) + 1 := by
  unfold depth
  cases l <;> cases r <;> simp [depthO]

/-- An invariant tree of level `ℓ` holds at least `2^ℓ - 1` values. -/
theorem size_bound : ∀ t : Node, Inv t → 2 ^ t.level ≤ (toList t).length + 1 := by
  refine ind_on _ ?_
  intro v lv l r ihl ihr hinv
  rw [Inv_mk] at hinv
  obtain ⟨hIl, hIr, hLl, hLr, hRok⟩ := hinv
  have hl : 2 ^ levelO l ≤ (toListO l).length + 1 := by
    cases l with
    | none => simp
    | some n => exact ihl n rfl hIl
  have hr : 2 ^ levelO r ≤ (toListO r).length + 1 := by
    cases r with
    | none => simp
    | some n => exact ihr n rfl hIr
  rw [toList_mk]
  simp only [List.length_append, List.length_cons, level_mk]
  obtain ⟨k, rfl⟩ : ∃ k, lv = k + 1 := ⟨lv - 1, by omega⟩
  have hkl : levelO l = k := by omega
  have hkr : k ≤ levelO r := by omega
  have hp : (2:Nat) ^ (k + 1) = 2 ^ k * 2 := Nat.pow_succ 2 k
  have hmono : (2:Nat) ^ k ≤ 2 ^ levelO r := Nat.pow_le_pow_right (by omega) hkr
  rw [hkl] at hl
  omega

/-- A horizontal root gives the stronger bound `2^ℓ` values. -/
theorem size_bound_horiz (t : Node) (h : Inv t) (hh : levelO t.right = t.level) :
    2 ^ t.level ≤ (toList t).length := by
  cases t with
  | mk v lv l r =>
    have hpos := inv_level_pos _ h
    rw [Inv_mk] at h
    obtain ⟨hIl, hIr, hLl, hLr, hRok⟩ := h
    simp only [right_mk, level_mk] at hh ⊢
    cases r with
    | none =>
      rw [levelO_none] at hh
      simp only [level_mk] at hpos
      omega
    | some rn =>
      rw [levelO_some] at hh
      have h1 := size_bound rn hIr
      rw [hh] at h1
      rw [toList_mk]
      simp only [List.length_append, List.length_cons, toListO_some]
      omega

/-- The standard AA depth bound: at level `ℓ` the depth is at most `2ℓ`,
and at most `2ℓ - 1` when the root carries no horizontal right link. -/
theorem depth_bound : ∀ t : Node, Inv t →
    depth t ≤ 2 * t.level ∧
    (levelO t.right ≠ t.level → depth t ≤ 2 * t.level - 1) := by
  refine ind_on _ ?_
  intro v lv l r ihl ihr hinv
  rw [Inv_mk] at hinv
  obtain ⟨hIl, hIr, hLl, hLr, hRok⟩ := hinv
  have hdl : depthO l ≤ 2 * levelO l := by
    cases l with
    | none => simp
    | some n => exact (ihl n rfl hIl).1
  have hdr : depthO r ≤ 2 * lv - 1 := by
    cases r with
    | none => simp
    | some n =>
      by_cases hh : n.level = lv
      · have hRok2 : n.level = lv → levelO n.right + 1 = lv := hRok
        have hx := hRok2 hh
        have h2 := (ihr n rfl hIr).2 (by omega)
        rw [hh] at h2
        exact h2
      · have h1 := (ihr n rfl hIr).1
        have hn1 : n.level + 1 = lv := by
          have hLr' : n.level + 1 = lv ∨ n.level = lv := hLr
          rcases hLr' with h | h
          · exact h
          · exact absurd h hh
        simp only [depthO_some]
        omega
  constructor
  · have hm : max (depthO l) (depthO r) ≤ 2 * lv - 1 :=
      Nat.max_le.mpr ⟨by omega, hdr⟩
    rw [depth_mk]
    simp only [level_mk]
    omega
  · intro hnh
    have hnh' : levelO r ≠ lv := hnh
    have hr1 : levelO r + 1 = lv := by
      rcases hLr with h | h
      · exact h
      · exact absurd h hnh'
    have hdr2 : depthO r ≤ 2 * (lv - 1) := by
      cases r with
      | none => simp
      | some n =>
        have h1 := (ihr n rfl hIr).1
        have hn : n.level = lv - 1 := by
          rw [levelO_some] at hr1
          omega
        simp only [depthO_some]
        omega
    have hm : max (depthO l) (depthO r) ≤ 2 * lv - 2 :=
      Nat.max_le.mpr ⟨by omega, by omega⟩
    rw [depth_mk]
    simp only [level_mk]
    omega

theorem inv_new_leaf (x : Nat) : Inv (new_leaf x) := by
  show Inv (.mk x 1 none none)
  simp [Inv_mk]

theorem build_inv (x : Nat) (xs : List Nat) : Inv (build x xs) := by
  suffices h : ∀ (ys : List Nat) (t : Node), Inv t →
      Inv (ys.foldl (fun t v => t.put v) t) from
    h xs (new_leaf x) (inv_new_leaf x)
  intro ys
  induction ys with
  | nil => exact fun t h => h
  | cons y ys ih =>
    intro t ht
    rw [List.foldl_cons]
    exact ih (t.put y) ((inner_inv y t ht).1)

end AA.Node

/-- C9: the AA tree built from a nonempty sequence `S = x :: xs` has
`depth() ≤ 2 * floor(log2 |dedup(S)|) + 1` — the balance property the
repository's own property test asserts. -/
theorem c9_depth_le_two_log_add_one (x : Nat) (xs : List Nat) :
    (AA.Node.build x xs).depth ≤
      2 * Nat.log 2 ((x :: xs).dedup).length + 1 := by
  have hinv := AA.Node.build_inv x xs
  obtain ⟨hs, hm⟩ := AA.Node.build_sorted_mem x xs
  have heq : (AA.Node.build x xs).toList = sortedDedupSpec (x :: xs) :=
    AA.Node.sorted_lt_eq_of_mem_iff _ _ hs (sortedDedupSpec_sorted _)
      (fun y => by rw [hm y, sortedDedupSpec_mem])
  have hlen : ((x :: xs).dedup).length = ((AA.Node.build x xs).toList).length := by
    rw [heq]
    exact ((List.perm_insertionSort _ _).length_eq).symm
  rw [hlen]
  have hx : x ∈ (AA.Node.build x xs).toList := (hm x).mpr (List.mem_cons_self _ _)
  have hn1 : 1 ≤ ((AA.Node.build x xs).toList).length := List.length_pos_of_mem hx
  have hpos := AA.Node.inv_level_pos _ hinv
  by_cases hh : AA.Node.levelO (AA.Node.build x xs).right = (AA.Node.build x xs).level
  · have hd := (AA.Node.depth_bound _ hinv).1
    have hsz := AA.Node.size_bound_horiz _ hinv hh
    have hlog : (AA.Node.build x xs).level ≤
        Nat.log 2 ((AA.Node.build x xs).toList).length :=
      (Nat.pow_le_iff_le_log (by omega) (by omega)).mp hsz
    omega
  · have hd := (AA.Node.depth_bound _ hinv).2 hh
    have hsz := AA.Node.size_bound _ hinv
    obtain ⟨k, hk⟩ : ∃ k, (AA.Node.build x xs).level = k + 1 :=
      ⟨(AA.Node.build x xs).level - 1, by omega⟩
    have hp : (2:Nat) ^ (k + 1) = 2 ^ k * 2 := Nat.pow_succ 2 k
    have h1 : 1 ≤ (2:Nat) ^ k := Nat.one_le_two_pow
    rw [hk] at hsz hd
    have hsz2 : 2 ^ k ≤ ((AA.Node.build x xs).toList).length := by omega
    have hlog : k ≤ Nat.log 2 ((AA.Node.build x xs).toList).length :=
      (Nat.pow_le_iff_le_log (by omega) (by omega)).mp hsz2
    omega
